import Mathlib

/-!
# Verification of the struct ⇄ LDAP-entry mapping in Adphi/ldap (v3)

This file shallowly embeds the reflection-driven `Encode`/`Decode` engine of
the repository's current (v3) package — `encoder.Encode`/`encodeStructFields`/
`encodeField` (src/unnamed/part_000, identical in structure to
src/v3/encode.go except where noted), `decoder.Decode`/`decodeStruct`/
`decodeStructField`/`setValue`/`getAttributeValues` (src/v3/decode.go), and
`parseTag`/`hasDN` (src/unnamed/part_003) — and proves/refutes the frozen
claims about it.

Modelling conventions:
* Go `reflect.Value`s of the supported kinds are modelled by the inductive
  `Value`.  Machine integers are `Int`/`Nat` (the 64-bit range checks of
  `strconv.ParseInt`/`ParseUint` are explicit); `float64` payloads are `Rat`
  (rounding of binary floats is not modelled — no claim depends on the exact
  digits, only on the `%f` text shape); `[]byte` is a `String` (Go string ⇄
  []byte conversion is byte-exact), with `none` standing for a nil slice;
  `time.Time` is an `Int` nanosecond count with `0` as the zero time.
* `ptr t ez` / `slice es ez` carry `ez`, the zero value of the pointee /
  element type, standing for the `reflect.Type` information that
  `reflect.New` / `reflect.Append` use.
* A `BinaryEncoder`/`BinaryDecoder` field (value or addressable receiver) is
  `custom d`: encoding emits the stored bytes (`none` = the encoder errors),
  decoding stores the incoming bytes.
* Fallible Go code returns `Except`.  A Go runtime panic (nil-pointer
  dereference in the slice-merge loop, `NumField` on a non-struct embedded
  value) is the explicit error `panicked`; Go's mutation of the target up to
  a failing field is not observable through `Except.error`, and no claim
  inspects a post-error target.
* The `Marshaler`/`Unmarshaler` whole-record escape hatch is not taken:
  the records quantified over here are plain data, as in the repo's tests.
-/

namespace ldap

/-- `strings.ToLower` (ASCII; structural on the character list so that
proofs can evaluate it). -/
def strToLower (s : String) : String := String.mk (s.data.map Char.toLower)

/-- `strings.ToUpper`. -/
def strToUpper (s : String) : String := String.mk (s.data.map Char.toUpper)

/-- `strings.TrimSpace`. -/
def strTrim (s : String) : String :=
  String.mk (((s.data.dropWhile Char.isWhitespace).reverse.dropWhile Char.isWhitespace).reverse)

/-- `strings.Split` with a one-character separator (the code only splits on
`","`): structural version of `String.splitOn`. -/
def splitOnChar (sep : Char) : List Char → List (List Char)
  | [] => [[]]
  | c :: rest =>
    match splitOnChar sep rest with
    | [] => [[]]
    | h :: t => if c == sep then [] :: h :: t else (c :: h) :: t

/-- `strings.Split(s, ",")` as a list of strings. -/
def strSplitComma (s : String) : List String :=
  (splitOnChar ',' s.data).map String.mk

/-- First character of a Go identifier is upper case (`unicode.IsUpper(rune(ft.Name[0]))`,
src/unnamed/part_000 line 48 and src/v3/decode.go line 45). -/
def isUpperFirst (s : String) : Bool :=
  match s.data with
  | [] => false
  | c :: _ => c.isUpper

/-- Result of `parseTag` (src/unnamed/part_003 lines 111-116): the resolved
attribute name and behaviour flags of one struct field. -/
structure TagInfo where
  attrName : String
  ignored : Bool
  omitempty : Bool
  readOnly : Bool
  deriving Repr, DecidableEq

/-- Default attribute name: field name with first letter lower-cased;
collapsed to all-lowercase when exactly two characters long
(src/unnamed/part_003 lines 119-121). -/
def defaultAttrName (fieldName : String) : String :=
  let name :=
    match fieldName.data with
    | [] => ""
    | c :: cs => String.mk (c.toLower :: cs)
  if name.length == 2 then strToLower name else name

/-- `parseTag` (src/unnamed/part_003 lines 118-149).  The `tag` argument is
the value of the field's `ldap:"..."` key, `none` when absent. -/
def parseTag (fieldName : String) (tag : Option String) : TagInfo :=
  let name := defaultAttrName fieldName
  match tag with
  | none => ⟨name, false, false, false⟩
  | some t =>
    let parts := strSplitComma t
    if strTrim (parts.headD "") == "-" then
      ⟨name, true, false, false⟩
    else
      { attrName := parts.headD ""
        ignored := false
        omitempty := parts.any (fun v => strTrim v == "omitempty")
        readOnly := parts.any (fun v => strTrim v == "ro") }

/-- `EntryAttribute`: name plus parallel text/byte value collections.  Byte
values are Go strings (byte-exact). -/
structure EntryAttribute where
  name : String
  values : List String
  byteValues : List String
  deriving Repr, DecidableEq

/-- `NewEntryAttribute` of the container package: byte values mirror the
text values. -/
def NewEntryAttribute (name : String) (values : List String) : EntryAttribute :=
  ⟨name, values, values⟩

/-- `emptyAttr` (src/unnamed/part_000 lines 177-179). -/
def emptyAttr (name : String) : EntryAttribute :=
  ⟨name, [], []⟩

/-- `Entry`: DN plus ordered attributes. -/
structure Entry where
  dn : String
  attributes : List EntryAttribute
  deriving Repr, DecidableEq

mutual
/-- A Go value of one of the kinds the engine dispatches on. -/
inductive Value where
  | str (s : String)
  | bytes (b : Option String)
  | intV (n : Int)
  | uintV (n : Nat)
  | boolV (b : Bool)
  | floatV (q : Rat)
  | timeV (nsec : Int)
  | custom (d : Option String)
  | ptr (p : Option Value) (ez : Value)
  | slice (es : Option (List Value)) (ez : Value)
  | struct (fields : List Field)
  deriving Repr

/-- One declared struct field: Go name, optional `ldap` tag value,
anonymous (embedded) flag, and current value. -/
inductive Field where
  | mk (name : String) (tag : Option String) (anonymous : Bool) (val : Value)
  deriving Repr
end

def Field.name : Field → String
  | .mk n _ _ _ => n

def Field.tag : Field → Option String
  | .mk _ t _ _ => t

def Field.anonymous : Field → Bool
  | .mk _ _ a _ => a

def Field.val : Field → Value
  | .mk _ _ _ v => v

def Field.withVal : Field → Value → Field
  | .mk n t a _, v => .mk n t a v

/-- Encoding errors (src/unnamed/part_003 lines 10-18 plus the `errors.New`
texts of `Encode`); `panicked` stands for a Go runtime panic. -/
inductive EncErr where
  | nilInput
  | notAStruct
  | noDN
  | unsupportedDNType
  | unsupportedType (attrName : String)
  | binErr
  | panicked
  deriving Repr, DecidableEq

/-- Decoding errors; `parseErr` collapses the `strconv` parse errors the code
surfaces verbatim. -/
inductive DecErr where
  | nilInput
  | notPointer
  | notAStruct
  | noDN
  | parseErr
  | panicked
  deriving Repr, DecidableEq

mutual
/-- `reflect.Value.IsZero`: a struct is zero iff all its fields are; a
pointer/slice/byte-buffer is zero iff nil. -/
def Value.isZero : Value → Bool
  | .str s => s == ""
  | .bytes b => b.isNone
  | .intV n => n == 0
  | .uintV n => n == 0
  | .boolV b => b == false
  | .floatV q => q == 0
  | .timeV t => t == 0
  | .custom d => d.isNone
  | .ptr p _ => p.isNone
  | .slice es _ => es.isNone
  | .struct fs => fieldsZero fs

termination_by structural v => v
/-- All fields of a struct are zero values. -/
def fieldsZero : List Field → Bool
  | [] => true
  | .mk _ _ _ v :: rest => Value.isZero v && fieldsZero rest
termination_by structural fs => fs
end

mutual
/-- The zero value of the same Go type as the given value (what
`reflect.New(T).Elem()` yields for a fresh record of the shape). -/
def shapeZero : Value → Value
  | .str _ => .str ""
  | .bytes _ => .bytes none
  | .intV _ => .intV 0
  | .uintV _ => .uintV 0
  | .boolV _ => .boolV false
  | .floatV _ => .floatV 0
  | .timeV _ => .timeV 0
  | .custom _ => .custom none
  | .ptr _ ez => .ptr none ez
  | .slice _ ez => .slice none ez
  | .struct fs => .struct (shapeZeroFields fs)

termination_by structural v => v
/-- Zero the values of a field list, keeping names, tags and flags. -/
def shapeZeroFields : List Field → List Field
  | [] => []
  | .mk n t a v :: rest => .mk n t a (shapeZero v) :: shapeZeroFields rest
termination_by structural fs => fs
end

mutual
/-- `hasDN` (src/unnamed/part_003 lines 151-169): after stripping pointers,
some field's resolved attribute name is exactly `"dn"` (case-sensitive
comparison in the source), or an anonymous field recursively has one. -/
def hasDN : Value → Bool
  | .ptr (some p) _ => hasDN p
  | .ptr none _ => false
  | .struct fs => hasDNFields fs
  | _ => false

termination_by structural v => v
/-- Field loop of `hasDN`. -/
def hasDNFields : List Field → Bool
  | [] => false
  | .mk n t a v :: rest =>
    (parseTag n t).attrName == "dn" || (a && hasDN v) || hasDNFields rest
termination_by structural fs => fs
end

/-! ## Decimal text: `fmt.Sprintf("%d"/"%f")` and `strconv` parsing -/

/-- The character of a decimal digit. -/
def digitChar (d : Nat) : Char := Char.ofNat (48 + d)

/-- Decimal text of a natural number (`fmt.Sprintf("%d", u)` for unsigned). -/
def natToStr (n : Nat) : String :=
  if n == 0 then "0" else String.mk ((Nat.digits 10 n).reverse.map digitChar)

/-- Decimal text of a signed integer (`fmt.Sprintf("%d", i)`). -/
def intToStr (i : Int) : String :=
  if i < 0 then "-" ++ natToStr i.natAbs else natToStr i.natAbs

/-- Numeric value of a big-endian digit-character list. -/
def digitsVal (cs : List Char) : Nat :=
  Nat.ofDigits 10 ((cs.map (fun c => c.toNat - 48)).reverse)

/-- Nonempty and all decimal digits. -/
def allDigits (cs : List Char) : Bool :=
  !cs.isEmpty && cs.all (·.isDigit)

/-- `strconv.ParseInt(s, 10, 64)`: optional sign, decimal digits, 64-bit
signed range. -/
def parseIntGo (s : String) : Option Int :=
  match s.data with
  | [] => none
  | c :: rest =>
    if c == '-' then
      if allDigits rest then
        let n := digitsVal rest
        if (n : Int) ≤ 2 ^ 63 then some (-(n : Int)) else none
      else none
    else if c == '+' then
      if allDigits rest then
        let n := digitsVal rest
        if n < 2 ^ 63 then some (n : Int) else none
      else none
    else
      if allDigits (c :: rest) then
        let n := digitsVal (c :: rest)
        if n < 2 ^ 63 then some (n : Int) else none
      else none

/-- `strconv.ParseUint(s, 10, 64)`: decimal digits (no sign), 64-bit range. -/
def parseUintGo (s : String) : Option Nat :=
  if allDigits s.data then
    let n := digitsVal s.data
    if n < 2 ^ 64 then some n else none
  else none

/-- Split a character list at the first `'.'`. -/
def splitAtDot : List Char → List Char × Option (List Char)
  | [] => ([], none)
  | c :: rest =>
    if c == '.' then ([], some rest)
    else
      let (a, b) := splitAtDot rest
      (c :: a, b)

/-- `strconv.ParseFloat(s, 64)` restricted to plain decimal notation (the
only shape `%f` output takes; exponent/hex/Inf forms are not modelled).  The
exact binary rounding of float64 is not modelled: the parsed value is the
exact rational. -/
def parseFloatGo (s : String) : Option Rat :=
  let (neg, cs) :=
    match s.data with
    | [] => (false, [])
    | c :: r => if c == '-' then (true, r) else if c == '+' then (false, r) else (false, c :: r)
  let (ip, fp?) := splitAtDot cs
  match fp? with
  | none =>
    if allDigits ip then
      let q : Rat := (digitsVal ip : Int)
      some (if neg then -q else q)
    else none
  | some fp =>
    if ip.all (·.isDigit) && fp.all (·.isDigit) && !(ip.isEmpty && fp.isEmpty) then
      let q : Rat := (digitsVal ip : Int) + (digitsVal fp : Rat) / (10 : Rat) ^ fp.length
      some (if neg then -q else q)
    else none

/-- Left-pad with `'0'` to the given width. -/
def padZeros (k : Nat) (s : String) : String :=
  String.mk (List.replicate (k - s.length) '0' ++ s.data)

/-- `fmt.Sprintf("%f", x)`: fixed notation with six fractional digits,
rounding to nearest (modelled half-up on the rational payload). -/
def fmtFloat (q : Rat) : String :=
  let scaled : Nat := (q.num.natAbs * 1000000 * 2 + q.den) / (2 * q.den)
  let ip := scaled / 1000000
  let fr := scaled % 1000000
  (if q < 0 then "-" else "") ++ natToStr ip ++ "." ++ padZeros 6 (natToStr fr)

/-! ## Timestamp decoding helpers (src/v3/decode.go lines 170-189) -/

/-- `atoi` (src/v3/decode.go lines 186-189): `strconv.Atoi` with the error
swallowed, yielding `0` on malformed input. -/
def atoi (s : String) : Int := (parseIntGo s).getD 0

/-- `decodeDateTime` (src/v3/decode.go lines 179-184): Windows FILETIME
epoch conversion truncated to whole seconds, as a nanosecond count. -/
def decodeDateTime (t : String) : Int :=
  let nsec := (atoi t - 116444736000000000) * 100
  (nsec.fdiv 1000000000) * 1000000000

/-- Days since the Unix epoch of a proleptic-Gregorian civil date. -/
def daysFromCivil (y m d : Nat) : Int :=
  let yy : Int := (y : Int) - (if m ≤ 2 then 1 else 0)
  let era : Int := (if 0 ≤ yy then yy else yy - 399) / 400
  let yoe : Int := yy - era * 400
  let mp : Int := ((m : Int) + 9) % 12
  let doy : Int := (153 * mp + 2) / 5 + (d : Int) - 1
  let doe : Int := yoe * 365 + yoe / 4 - yoe / 100 + doy
  era * 146097 + doe - 719468

/-- Modelled from the spec: `decodeTime` (src/v3/decode.go lines 170-177)
delegates the fixed layout `"20060102150405.0Z"` to the Go standard
library's `time.Parse`, which is outside this repository.  It is modelled as
a parser for `YYYYMMDDhhmmss.fZ` (one fractional digit, literal `Z`),
converted through proleptic-Gregorian day arithmetic to nanoseconds since
the Unix epoch; malformed input silently yields the zero time, as the spec
states. -/
def decodeTime (s : String) : Int :=
  match s.data with
  | [y1, y2, y3, y4, o1, o2, d1, d2, h1, h2, i1, i2, s1, s2, '.', fr, 'Z'] =>
    if ([y1, y2, y3, y4, o1, o2, d1, d2, h1, h2, i1, i2, s1, s2, fr].all (·.isDigit)) then
      let y := digitsVal [y1, y2, y3, y4]
      let mo := digitsVal [o1, o2]
      let dd := digitsVal [d1, d2]
      let h := digitsVal [h1, h2]
      let mi := digitsVal [i1, i2]
      let se := digitsVal [s1, s2]
      let f := digitsVal [fr]
      if 1 ≤ mo && mo ≤ 12 && 1 ≤ dd && dd ≤ 31 && h ≤ 23 && mi ≤ 59 && se ≤ 59 then
        (daysFromCivil y mo dd * 86400 + ((h * 3600 + mi * 60 + se : Nat) : Int)) * 1000000000
          + (f : Int) * 100000000
      else 0
    else 0
  | _ => 0

/-! ## Encoding (src/unnamed/part_000; src/v3/encode.go is the same code
except that it lacks the exported-field check, the `ro` skip, the `bool`
case and the addressable-`BinaryEncoder` fallback — the current v3 package
is the variant its own tests exercise) -/

mutual

/-- `encodeField` (src/unnamed/part_000 lines 98-175): omit-empty guard, DN
branch, type switch, slice loop, pointer indirection, unsupported fallback. -/
def encodeField (attrName : String) (fv : Value) (omitEmpty : Bool) :
    Except EncErr (Option EntryAttribute × String) :=
  if omitEmpty && fv.isZero then .ok (none, "")
  else if strToLower attrName == "dn" then
    match fv with
    | .str s => .ok (none, s)
    | .bytes b => .ok (none, b.getD "")
    | _ => .error .unsupportedDNType
  else
    match fv with
    | .custom (some b) => .ok (some (NewEntryAttribute attrName [b]), "")
    | .custom none => .error .binErr
    | .intV n => .ok (some (NewEntryAttribute attrName [intToStr n]), "")
    | .uintV n => .ok (some (NewEntryAttribute attrName [natToStr n]), "")
    | .floatV q => .ok (some (NewEntryAttribute attrName [fmtFloat q]), "")
    | .str s => .ok (some (NewEntryAttribute attrName [s]), "")
    | .bytes b => .ok (some (NewEntryAttribute attrName [b.getD ""]), "")
    | .boolV b => .ok (some (NewEntryAttribute attrName [if b then "TRUE" else "FALSE"]), "")
    | .slice none _ => .ok (some (emptyAttr attrName), "")
    | .slice (some l) _ =>
      match encodeElems attrName l none with
      | .error e => .error e
      | .ok a => .ok (some (a.getD (emptyAttr attrName)), "")
    | .ptr (some p) _ => encodeField attrName p omitEmpty
    | .ptr none _ => .error .panicked
    | .struct _ => .error (.unsupportedType attrName)
    | .timeV _ => .error (.unsupportedType attrName)
termination_by structural fv


/-- Element loop of `encodeField`'s slice branch (src/unnamed/part_000 lines
151-168): each element is encoded with omit-empty forced on; a skipped
element after a kept one dereferences a nil attribute (Go panic). -/
def encodeElems (attrName : String) : List Value → Option EntryAttribute →
    Except EncErr (Option EntryAttribute)
  | [], acc => .ok acc
  | v :: vs, acc =>
    match encodeField attrName v true with
    | .error e => .error e
    | .ok (a, _) =>
      match acc with
      | none => encodeElems attrName vs a
      | some merged =>
        match a with
        | none => .error .panicked
        | some av =>
          encodeElems attrName vs
            (some ⟨merged.name, merged.values ++ av.values, merged.byteValues ++ av.byteValues⟩)
termination_by structural l _ => l
end

mutual
/-- `encodeStructFields` (src/unnamed/part_000 lines 44-96) as a fold: each
field contributes attributes and possibly a DN; a later nonempty DN
overrides an earlier one; the first error aborts. -/
def encodeStructFields : List Field → Except EncErr (List EntryAttribute × String)
  | [] => .ok ([], "")
  | .mk n t a v :: rest =>
    match encodeFieldCore n a (parseTag n t) v with
    | .error e => .error e
    | .ok (as1, d1) =>
      match encodeStructFields rest with
      | .error e => .error e
      | .ok (as2, d2) => .ok (as1 ++ as2, if d2 != "" then d2 else d1)
termination_by structural fs => fs


/-- Body of the `encodeStructFields` loop for one field (src/unnamed/part_000
lines 45-94), with the parsed tag passed explicitly. -/
def encodeFieldCore (n : String) (anon : Bool) (info : TagInfo) (v : Value) :
    Except EncErr (List EntryAttribute × String) :=
  if !isUpperFirst n then .ok ([], "")
  else if info.ignored || info.readOnly then .ok ([], "")
  else if v.isZero && strToLower info.attrName != "dn" && info.omitempty then .ok ([], "")
  else
    match v with
    | .ptr none _ => .ok ([emptyAttr info.attrName], "")
    | v =>
      if anon then
        match v with
        | .struct fs => encodeStructFields fs
        | _ => .error .panicked
      else
        match encodeField info.attrName v info.omitempty with
        | .error e => .error e
        | .ok (attr?, d) =>
          if d != "" then .ok ([], d)
          else .ok ([attr?.getD (emptyAttr info.attrName)], "")
termination_by structural v
end

/-- Strip pointer indirection (`for rv.Kind() == reflect.Ptr { rv = rv.Elem() }`). -/
def stripPtrs : Value → Value
  | .ptr (some p) _ => stripPtrs p
  | v => v

termination_by structural v => v
/-- `encoder.Encode` (src/unnamed/part_000 lines 15-42; src/v3/encode.go
lines 12-39): indirection, struct check, field traversal, `NoDN` check only
after the traversal succeeded. -/
def Encode (v : Value) : Except EncErr Entry :=
  match stripPtrs v with
  | .struct fs =>
    match encodeStructFields fs with
    | .error e => .error e
    | .ok (attrs, dn) => if dn == "" then .error .noDN else .ok ⟨dn, attrs⟩
  | _ => .error .notAStruct

/-! ## Decoding (src/v3/decode.go) -/

/-- `getAttributeValues` (src/v3/decode.go lines 161-168): first attribute
whose name matches case-insensitively. -/
def getAttributeValues (e : Entry) (wanted : String) : Option (List String) :=
  match e.attributes.find? (fun a => strToLower a.name == strToLower wanted) with
  | some a => some a.values
  | none => none

/-- `setValue` (src/v3/decode.go lines 100-159): allocate a nil pointer,
custom binary decoder, kind switch, `[]byte`/`time.Time` switch, pointer
recursion; anything else is left untouched.  The nil-pointer allocation
followed by Go's re-dispatch on the pointer collapses to recursing into the
allocated zero pointee. -/
def setValue : Value → String → Except DecErr Value
  | .ptr none ez, a =>
    match setValue ez a with
    | .error e => .error e
    | .ok p => .ok (.ptr (some p) ez)
  | .custom _, a => .ok (.custom (some a))
  | .intV _, a =>
    match parseIntGo a with
    | some n => .ok (.intV n)
    | none => .error .parseErr
  | .uintV _, a =>
    match parseUintGo a with
    | some n => .ok (.uintV n)
    | none => .error .parseErr
  | .floatV _, a =>
    match parseFloatGo a with
    | some q => .ok (.floatV q)
    | none => .error .parseErr
  | .str _, a => .ok (.str a)
  | .boolV _, a => .ok (.boolV (strToUpper a == "TRUE"))
  | .bytes _, a => .ok (.bytes (some a))
  | .timeV _, a =>
    if (parseIntGo a).isSome then .ok (.timeV (decodeDateTime a))
    else .ok (.timeV (decodeTime a))
  | .ptr (some p) ez, a =>
    match setValue p a with
    | .error e => .error e
    | .ok q => .ok (.ptr (some q) ez)
  | v, _ => .ok v

termination_by structural v _ => v
/-- Element loop of `decodeStructField`'s slice branch: a fresh zero element
per provided value, coerced and appended in order. -/
def decodeElems (ez : Value) : List String → Except DecErr (List Value)
  | [] => .ok []
  | a :: rest =>
    match setValue ez a with
    | .error e => .error e
    | .ok v =>
      match decodeElems ez rest with
      | .error e => .error e
      | .ok l => .ok (v :: l)

/-- `decodeStructField` (src/v3/decode.go lines 75-98): byte buffers and
scalars take only the first value (none ⇒ untouched); other slices append
one coerced element per value. -/
def decodeStructField (v : Value) (vals : List String) : Except DecErr Value :=
  match v with
  | .bytes b =>
    match vals with
    | [] => .ok (.bytes b)
    | a :: _ => setValue (.bytes b) a
  | .slice es ez =>
    match vals with
    | [] => .ok (.slice es ez)
    | _ =>
      match decodeElems ez vals with
      | .error e => .error e
      | .ok l => .ok (.slice (some (es.getD [] ++ l)) ez)
  | v =>
    match vals with
    | [] => .ok v
    | a :: _ => setValue v a

mutual
/-- `decodeStruct` (src/v3/decode.go lines 41-73) over the field list,
returning the updated fields. -/
def decodeStruct (e : Entry) : List Field → Except DecErr (List Field)
  | [] => .ok []
  | f :: rest =>
    match decodeFieldStep e f with
    | .error err => .error err
    | .ok g =>
      match decodeStruct e rest with
      | .error err => .error err
      | .ok gs => .ok (g :: gs)
termination_by structural fs => fs

/-- Body of the `decodeStruct` loop for one field: exported check, ignored
check, anonymous recursion, DN assignment, attribute lookup (absent ⇒
untouched). -/
def decodeFieldStep (e : Entry) : Field → Except DecErr Field
  | .mk n t anon v =>
    if !isUpperFirst n then .ok (.mk n t anon v)
    else
      let info := parseTag n t
      if info.ignored then .ok (.mk n t anon v)
      else if anon then
        match v with
        | .struct fs =>
          match decodeStruct e fs with
          | .error err => .error err
          | .ok gs => .ok (.mk n t anon (.struct gs))
        | _ => .error .panicked
      else if strToLower info.attrName == "dn" then
        match setValue v e.dn with
        | .error err => .error err
        | .ok w => .ok (.mk n t anon w)
      else
        match getAttributeValues e info.attrName with
        | none => .ok (.mk n t anon v)
        | some vals =>
          match decodeStructField v vals with
          | .error err => .error err
          | .ok w => .ok (.mk n t anon w)
termination_by structural f => f
end

/-- `decoder.Decode` (src/v3/decode.go lines 16-39): `v` is the record the Go
pointer argument refers to; the struct check precedes the structural `hasDN`
check, which precedes any field work. -/
def Decode (e : Entry) (v : Value) : Except DecErr Value :=
  match v with
  | .struct fs =>
    if hasDN (.struct fs) then
      match decodeStruct e fs with
      | .error err => .error err
      | .ok gs => .ok (.struct gs)
    else .error .noDN
  | _ => .error .notAStruct

mutual
/-- Claim-side predicate, following the spec's words for C4/C5: some field
resolves, case-insensitively, to the identity attribute `dn`, along the same
traversal `hasDN` performs (pointer stripping, anonymous recursion). -/
def resolvesDNInsens : Value → Bool
  | .ptr (some p) _ => resolvesDNInsens p
  | .ptr none _ => false
  | .struct fs => resolvesDNInsensFields fs
  | _ => false

termination_by structural v => v
/-- Field-list part of `resolvesDNInsens`. -/
def resolvesDNInsensFields : List Field → Bool
  | [] => false
  | .mk n t a v :: rest =>
    (strToLower (parseTag n t).attrName == "dn") || (a && resolvesDNInsens v) ||
      resolvesDNInsensFields rest
termination_by structural fs => fs
end

/-! ## Claim-side definitions for the round-trip claim (C1) -/

/-- Strip all non-nil pointer indirection from a value. -/
def derefAll : Value → Value
  | .ptr (some p) _ => derefAll p
  | v => v

termination_by structural v => v
/-- The single text value a supported scalar encodes to (mirrors the
type-switch texts of `encodeField`). -/
def scalarText : Value → String
  | .str s => s
  | .bytes b => b.getD ""
  | .intV n => intToStr n
  | .uintV n => natToStr n
  | .boolV b => if b then "TRUE" else "FALSE"
  | .floatV q => fmtFloat q
  | .ptr (some p) _ => scalarText p
  | _ => ""

termination_by structural v => v
/-- The text values a supported field value contributes to its attribute. -/
def encTexts : Value → List String
  | .slice none _ => []
  | .slice (some l) _ => l.map scalarText
  | .ptr none _ => []
  | v => [scalarText v]

mutual
/-- Structural (Go `reflect.DeepEqual`-style) equality of modelled values. -/
def vbeq : Value → Value → Bool
  | .str a, .str b => a == b
  | .bytes a, .bytes b => a == b
  | .intV a, .intV b => a == b
  | .uintV a, .uintV b => a == b
  | .boolV a, .boolV b => a == b
  | .floatV a, .floatV b => a == b
  | .timeV a, .timeV b => a == b
  | .custom a, .custom b => a == b
  | .ptr (some a) e1, .ptr (some b) e2 => vbeq a b && vbeq e1 e2
  | .ptr none e1, .ptr none e2 => vbeq e1 e2
  | .slice none e1, .slice none e2 => vbeq e1 e2
  | .slice (some l) e1, .slice (some m) e2 => vbeqList l m && vbeq e1 e2
  | .struct fs, .struct gs => vbeqFields fs gs
  | _, _ => false

termination_by structural a _ => a
/-- Pointwise `vbeq` on lists. -/
def vbeqList : List Value → List Value → Bool
  | [], [] => true
  | a :: l, b :: m => vbeq a b && vbeqList l m
  | _, _ => false

termination_by structural l _ => l
/-- Pointwise `vbeq` on field lists (names, tags and flags included). -/
def vbeqFields : List Field → List Field → Bool
  | [], [] => true
  | .mk n1 t1 a1 v1 :: l, .mk n2 t2 a2 v2 :: m =>
    n1 == n2 && t1 == t2 && a1 == a2 && vbeq v1 v2 && vbeqFields l m
  | _, _ => false
termination_by structural l _ => l
end

mutual
/-- Equality of values up to floating-point payloads (the claim's carve-out
for `%f` precision loss) and up to the model's type-token components, which
decoding preserves by construction. -/
def veq : Value → Value → Bool
  | .floatV _, .floatV _ => true
  | .str a, .str b => a == b
  | .bytes a, .bytes b => a == b
  | .intV a, .intV b => a == b
  | .uintV a, .uintV b => a == b
  | .boolV a, .boolV b => a == b
  | .timeV a, .timeV b => a == b
  | .custom a, .custom b => a == b
  | .ptr (some a) _, .ptr (some b) _ => veq a b
  | .ptr none _, .ptr none _ => true
  | .slice none _, .slice none _ => true
  | .slice (some l) _, .slice (some m) _ => veqList l m
  | .struct fs, .struct gs => veqFields fs gs
  | _, _ => false

termination_by structural a _ => a
/-- Pointwise `veq` on lists. -/
def veqList : List Value → List Value → Bool
  | [], [] => true
  | a :: l, b :: m => veq a b && veqList l m
  | _, _ => false

termination_by structural l _ => l
/-- Pointwise `veq` on field lists. -/
def veqFields : List Field → List Field → Bool
  | [], [] => true
  | .mk n1 t1 a1 v1 :: l, .mk n2 t2 a2 v2 :: m =>
    n1 == n2 && t1 == t2 && a1 == a2 && veq v1 v2 && veqFields l m
  | _, _ => false
termination_by structural l _ => l
end

/-- Scalar values whose encode/decode coercion round-trips: text, non-nil
byte buffers, 64-bit-range integers, booleans, floats (up to the carve-out),
and pointer chains to such values whose type token matches the pointee. -/
def scalarOK : Value → Bool
  | .str _ => true
  | .bytes (some _) => true
  | .intV n => decide (-(2 ^ 63 : Int) ≤ n) && decide (n < 2 ^ 63)
  | .uintV n => decide (n < 2 ^ 64)
  | .boolV _ => true
  | .floatV _ => true
  | .ptr (some p) ez => scalarOK p && vbeq ez (shapeZero p)
  | _ => false

termination_by structural v => v
/-- Field values for which the round trip holds: round-trippable scalars, a
nil pointer or nil slice, or a slice of round-trippable scalars none of which
is zero after dereferencing (the encoder drops zero elements — or panics —
and silently no-ops on deeper nesting). -/
def fieldValOK : Value → Bool
  | .slice none _ => true
  | .slice (some l) ez =>
    !l.isEmpty && l.all (fun x => scalarOK x && !(derefAll x).isZero && vbeq ez (shapeZero x))
  | .ptr none _ => true
  | v => scalarOK v

/-- Lower-cased resolved attribute name of a field. -/
def lowName (f : Field) : String := strToLower (parseTag f.name f.tag).attrName

/-- Identity-field values the encoder accepts with a non-empty identity. -/
def dnValOK : Value → Bool
  | .str s => s != ""
  | .bytes (some b) => b != ""
  | _ => false

/-- Per-field hypotheses of the amended round-trip claim for an *active,
non-embedded* field (exported, not ignored, not read-only, not anonymous):
the identity field resolves to exactly `dn` with a non-empty text/byte value;
other fields hold round-trippable values, and omit-if-empty fields are either
zero or non-zero after dereferencing. -/
def plainFieldOK (f : Field) : Bool :=
  isUpperFirst f.name && !(parseTag f.name f.tag).ignored &&
    !(parseTag f.name f.tag).readOnly && !f.anonymous &&
    (if lowName f == "dn" then
      ((parseTag f.name f.tag).attrName == "dn") && dnValOK f.val
     else
      fieldValOK f.val &&
        (!(parseTag f.name f.tag).omitempty || f.val.isZero || !(derefAll f.val).isZero))

mutual
/-- Per-field hypotheses of the amended round-trip claim, over the whole
field tree: an unexported or ignored field is invisible on both sides, so
its value must already equal its zero shape; a read-only field is skipped by
the encoder but still looked up by the decoder, so it must be non-embedded,
must not resolve to the identity, and must hold its zero shape; an embedded
field must be an exported struct value whose fields recursively satisfy the
hypotheses and must not be skipped by the omit-if-empty rule; any other
field satisfies the active-field hypotheses. -/
def fieldOK : Field → Bool
  | .mk n t a v =>
    if !isUpperFirst n || (parseTag n t).ignored then veq (shapeZero v) v
    else if (parseTag n t).readOnly then
      !a && !(strToLower (parseTag n t).attrName == "dn") && veq (shapeZero v) v
    else if a then structOK v && !((parseTag n t).omitempty && v.isZero)
    else plainFieldOK (.mk n t false v)
termination_by structural f => f

/-- An embedded field's value must be a struct whose fields are acceptable. -/
def structOK : Value → Bool
  | .struct gs => fieldsOK gs
  | _ => false
termination_by structural v => v

/-- `fieldOK` over a field list. -/
def fieldsOK : List Field → Bool
  | [] => true
  | f :: rest => fieldOK f && fieldsOK rest
termination_by structural fs => fs
end

mutual
/-- The decode-active, non-embedded fields of a field tree, in traversal
order: unexported and ignored fields disappear, embedded structs are
flattened, every other field (read-only included) is kept. -/
def flatField : Field → List Field
  | .mk n t a v =>
    if !isUpperFirst n || (parseTag n t).ignored then []
    else if a then flatVal v
    else [.mk n t a v]
termination_by structural f => f

/-- The flattened fields of an embedded value. -/
def flatVal : Value → List Field
  | .struct gs => flatOf gs
  | _ => []
termination_by structural v => v

/-- `flatField` over a field list. -/
def flatOf : List Field → List Field
  | [] => []
  | f :: rest => flatField f ++ flatOf rest
termination_by structural fs => fs
end

/-- The lower-cased resolved attribute names of the flattened field tree. -/
def namesOf (fs : List Field) : List String := (flatOf fs).map lowName

/-- Pairwise-distinct strings. -/
def distinctNames : List String → Bool
  | [] => true
  | x :: rest => rest.all (fun y => y != x) && distinctNames rest

/-- Hypotheses of the amended round-trip claim for a whole record: every
field of the tree is acceptable, the flattened resolved names are pairwise
distinct, and some flattened field resolves to the identity. -/
def recordOK (fs : List Field) : Bool :=
  fieldsOK fs && distinctNames (namesOf fs) &&
    (namesOf fs).any (fun x => x == "dn")

/-- What the decoder's attribute lookup finds for one flattened field of a
well-behaved record: nothing for read-only and omit-skipped fields, the
field's encoded texts otherwise. -/
def lookupExpect (g : Field) : Option (List String) :=
  if (parseTag g.name g.tag).readOnly then none
  else if (parseTag g.name g.tag).omitempty && g.val.isZero then none
  else some (encTexts g.val)

/-- The decode-side facts one flattened field needs from the entry: the
entry's identity is the field's text if it resolves to `dn`, and otherwise
the case-insensitive lookup of its resolved name yields `lookupExpect`. -/
def decCtx (e : Entry) (g : Field) : Prop :=
  (strToLower (parseTag g.name g.tag).attrName = "dn" → e.dn = scalarText g.val) ∧
  (strToLower (parseTag g.name g.tag).attrName ≠ "dn" →
    getAttributeValues e (parseTag g.name g.tag).attrName = lookupExpect g)

mutual
/-- Identity contribution of one field during encoding: nothing from skipped
or read-only fields, the recursive identity of an embedded struct, the
field's text if it resolves to `dn`. -/
def dnContrib : Field → String
  | .mk n t a v =>
    if !isUpperFirst n || (parseTag n t).ignored || (parseTag n t).readOnly then ""
    else if a then dnOfVal v
    else if lowName (.mk n t a v) == "dn" then scalarText v
    else ""
termination_by structural f => f

/-- The identity contributed by an embedded value. -/
def dnOfVal : Value → String
  | .struct gs => dnOf gs
  | _ => ""
termination_by structural v => v

/-- The encoded identity of a field list: the last non-empty identity
contribution. -/
def dnOf : List Field → String
  | [] => ""
  | f :: rest => if dnOf rest != "" then dnOf rest else dnContrib f
termination_by structural fs => fs
end

mutual
/-- The attributes one field contributes to the encoded entry: nothing from
skipped, read-only, identity or omit-skipped fields; the recursive
attributes of an embedded struct; one attribute otherwise. -/
def fieldAttrs : Field → List EntryAttribute
  | .mk n t a v =>
    if !isUpperFirst n || (parseTag n t).ignored || (parseTag n t).readOnly then []
    else if a then attrsOfVal v
    else if lowName (.mk n t a v) == "dn" then []
    else if (parseTag n t).omitempty && v.isZero then []
    else [⟨(parseTag n t).attrName, encTexts v, encTexts v⟩]
termination_by structural f => f

/-- The attributes contributed by an embedded value. -/
def attrsOfVal : Value → List EntryAttribute
  | .struct gs => attrsOf gs
  | _ => []
termination_by structural v => v

/-- All attributes of the encoded entry, in field order. -/
def attrsOf : List Field → List EntryAttribute
  | [] => []
  | f :: rest => fieldAttrs f ++ attrsOf rest
termination_by structural fs => fs
end

/-! ## Theorems for the claims -/

/-- The field walker skips a field whose name does not start upper-case:
one-field encode step. -/
theorem encodeFieldCore_unexported (n : String) (anon : Bool) (info : TagInfo)
    (v : Value) (h : isUpperFirst n = false) :
    encodeFieldCore n anon info v = .ok ([], "") := by
  cases v with
  | ptr p ez => cases p <;> simp [encodeFieldCore, h]
  | _ => simp [encodeFieldCore, h]

/-- The field walker skips a field whose name does not start upper-case:
one-field decode step. -/
theorem decodeFieldStep_unexported (e : Entry) (n : String) (t : Option String)
    (a : Bool) (v : Value) (h : isUpperFirst n = false) :
    decodeFieldStep e (.mk n t a v) = .ok (.mk n t a v) := by
  cases v <;> simp [decodeFieldStep, h]

/-- C2: a field whose declared name does not start with an upper-case
character is skipped entirely by both directions: during encoding it
contributes no attribute and no DN (the traversal result equals the one
without it), and during decoding it is returned exactly as it was, with the
remaining fields processed as if it were absent. -/
theorem c2_unexported_fields_skipped (e : Entry) (n : String) (t : Option String)
    (a : Bool) (v : Value) (rest : List Field) (h : isUpperFirst n = false) :
    encodeStructFields (.mk n t a v :: rest) = encodeStructFields rest ∧
    decodeStruct e (.mk n t a v :: rest) =
      (decodeStruct e rest).map (fun gs => .mk n t a v :: gs) := by
  constructor
  · rw [encodeStructFields, encodeFieldCore_unexported n a (parseTag n t) v h]
    cases hrest : encodeStructFields rest with
    | error err => rfl
    | ok p =>
      obtain ⟨as2, d2⟩ := p
      simp only [List.nil_append]
      by_cases hd : d2 = "" <;> simp [hd]
  · rw [decodeStruct, decodeFieldStep_unexported e n t a v h]
    cases hrest : decodeStruct e rest with
    | error err => rfl
    | ok gs => rfl

/-- Witness for C2 at the unexported `time` field of the repo's `TypesAll`
test record. -/
theorem c2_unexported_fields_skipped_witness :
    encodeStructFields [.mk "time" none false (.timeV 5)] = encodeStructFields [] ∧
    decodeStruct ⟨"cn=u", []⟩ [.mk "time" none false (.timeV 5)] =
      (decodeStruct ⟨"cn=u", []⟩ []).map (fun gs => .mk "time" none false (.timeV 5) :: gs) :=
  c2_unexported_fields_skipped ⟨"cn=u", []⟩ "time" none false (.timeV 5) [] (by decide)

/-- C3: the type coercer encodes a boolean non-identity field as the single
text value `TRUE`/`FALSE`. -/
theorem c3_bool_encodes_true_false (name : String) (b : Bool)
    (h : strToLower name ≠ "dn") :
    encodeField name (.boolV b) false =
      .ok (some (NewEntryAttribute name [if b then "TRUE" else "FALSE"]), "") := by
  simp [encodeField, Value.isZero, h]

/-- Witness for C3 at both boolean values. -/
theorem c3_bool_encodes_true_false_witness :
    encodeField "bool" (.boolV true) false =
      .ok (some (NewEntryAttribute "bool" ["TRUE"]), "") ∧
    encodeField "bool" (.boolV false) false =
      .ok (some (NewEntryAttribute "bool" ["FALSE"]), "") :=
  ⟨c3_bool_encodes_true_false "bool" true (by decide),
   c3_bool_encodes_true_false "bool" false (by decide)⟩

/-- C7: a field resolving (case-insensitively) to `dn` supplies the Entry's
identity when it is text or a byte buffer (bytes converted to text), and any
other type fails with `UnsupportedDNType`. -/
theorem c7_dn_field_typing :
    (∀ s : String, s ≠ "" →
      Encode (.struct [.mk "DN" none false (.str s)]) = .ok ⟨s, []⟩) ∧
    (∀ b : String, b ≠ "" →
      Encode (.struct [.mk "DN" none false (.bytes (some b))]) = .ok ⟨b, []⟩) ∧
    (∀ (name : String) (v : Value), strToLower name = "dn" →
      (∀ s, v ≠ .str s) → (∀ bb, v ≠ .bytes bb) →
      encodeField name v false = .error .unsupportedDNType) := by
  have hpt : parseTag "DN" none = ⟨"dn", false, false, false⟩ := by decide
  refine ⟨?_, ?_, ?_⟩
  · intro s hs
    simp +decide [Encode, stripPtrs, encodeStructFields, encodeFieldCore, encodeField,
      hpt, hs, Value.isZero]
  · intro b hb
    simp +decide [Encode, stripPtrs, encodeStructFields, encodeFieldCore, encodeField,
      hpt, hb, Value.isZero]
  · intro name v h hstr hbytes
    cases v with
    | str s => exact absurd rfl (hstr s)
    | bytes b => exact absurd rfl (hbytes b)
    | ptr p ez => cases p <;> simp [encodeField, h]
    | slice es ez => cases es <;> simp [encodeField, h]
    | custom d => cases d <;> simp [encodeField, h]
    | _ => simp [encodeField, h]

/-- Witness for C7: text and byte identities succeed; an int identity fails. -/
theorem c7_dn_field_typing_witness :
    Encode (.struct [.mk "DN" none false (.str "cn=u")]) = .ok ⟨"cn=u", []⟩ ∧
    Encode (.struct [.mk "DN" none false (.bytes (some "cn=b"))]) = .ok ⟨"cn=b", []⟩ ∧
    encodeField "dn" (.intV 0) false = .error .unsupportedDNType :=
  ⟨c7_dn_field_typing.1 "cn=u" (by decide),
   c7_dn_field_typing.2.1 "cn=b" (by decide),
   c7_dn_field_typing.2.2 "dn" (.intV 0) (by decide)
     (fun s h => by cases h) (fun bb h => by cases h)⟩

/-- C10: decoding leaves a non-identity, non-embedded field untouched — and
errors for nothing — when no attribute of the entry matches its resolved
name case-insensitively. -/
theorem c10_missing_attribute_leaves_field (e : Entry) (n : String)
    (t : Option String) (v : Value)
    (hdn : strToLower (parseTag n t).attrName ≠ "dn")
    (habs : ∀ a ∈ e.attributes, strToLower a.name ≠ strToLower (parseTag n t).attrName) :
    decodeFieldStep e (.mk n t false v) = .ok (.mk n t false v) := by
  have hnone : getAttributeValues e (parseTag n t).attrName = none := by
    rw [getAttributeValues]
    have hfind : e.attributes.find?
        (fun a => strToLower a.name == strToLower (parseTag n t).attrName) = none := by
      rw [List.find?_eq_none]
      intro a ha
      simpa using habs a ha
    rw [hfind]
  by_cases hup : isUpperFirst n
  · cases v <;> simp [decodeFieldStep, hup, hdn, hnone]
  · exact decodeFieldStep_unexported e n t false v (by simpa using hup)

/-- Witness for C10: an entry with one unrelated attribute leaves the field
`Alpha` (resolved name `beta`) at its pre-call value. -/
theorem c10_missing_attribute_leaves_field_witness :
    decodeFieldStep ⟨"cn=u", [NewEntryAttribute "noop" ["noop"]]⟩
        (.mk "Alpha" (some "beta") false (.str "pre")) =
      .ok (.mk "Alpha" (some "beta") false (.str "pre")) :=
  c10_missing_attribute_leaves_field ⟨"cn=u", [NewEntryAttribute "noop" ["noop"]]⟩
    "Alpha" (some "beta") (.str "pre") (by decide) (by decide)

mutual
/-- A case-sensitive `hasDN` hit is in particular a case-insensitive one. -/
theorem hasDN_imp_insens : ∀ (v : Value), hasDN v = true → resolvesDNInsens v = true
  | .ptr (some q) _, h => by
    rw [hasDN] at h
    rw [resolvesDNInsens]
    exact hasDN_imp_insens q h
  | .ptr none _, h => by simp [hasDN] at h
  | .struct fs, h => by
    rw [hasDN] at h
    rw [resolvesDNInsens]
    exact hasDNFields_imp_insens fs h
  | .str _, h => by simp [hasDN] at h
  | .bytes _, h => by simp [hasDN] at h
  | .intV _, h => by simp [hasDN] at h
  | .uintV _, h => by simp [hasDN] at h
  | .boolV _, h => by simp [hasDN] at h
  | .floatV _, h => by simp [hasDN] at h
  | .timeV _, h => by simp [hasDN] at h
  | .custom _, h => by simp [hasDN] at h

/-- Field-list part of `hasDN_imp_insens`. -/
theorem hasDNFields_imp_insens : ∀ (fs : List Field),
    hasDNFields fs = true → resolvesDNInsensFields fs = true
  | [], h => by simp [hasDNFields] at h
  | .mk n t a v :: rest, h => by
    simp only [hasDNFields] at h
    simp only [resolvesDNInsensFields]
    have h' : ((parseTag n t).attrName == "dn") = true ∨
        ((a && hasDN v) = true ∨ hasDNFields rest = true) := by
      rcases Bool.or_eq_true_iff.mp h with h12 | h3
      · rcases Bool.or_eq_true_iff.mp h12 with h1 | h2
        · exact Or.inl h1
        · exact Or.inr (Or.inl h2)
      · exact Or.inr (Or.inr h3)
    rcases h' with h1 | h2 | h3
    · have hdn : (parseTag n t).attrName = "dn" := by simpa using h1
      simp +decide [hdn]
    · rcases Bool.and_eq_true_iff.mp h2 with ⟨ha, hv⟩
      simp [ha, hasDN_imp_insens v hv]
    · simp [hasDNFields_imp_insens rest h3]
end

/-- C5: decoding into a record shape in which no field resolves — even
case-insensitively — to the identity attribute fails with `NoDN`, for every
entry alike (the check never reads the entry). -/
theorem c5_decode_no_identity_shape_nodn (e : Entry) (fs : List Field)
    (h : resolvesDNInsens (.struct fs) = false) :
    Decode e (.struct fs) = .error .noDN := by
  have hdn : hasDN (.struct fs) = false := by
    cases hh : hasDN (.struct fs) with
    | false => rfl
    | true => exact absurd (hasDN_imp_insens _ hh) (by simp [h])
  simp [Decode, hdn]

/-- Witness for C5 at the repo's `TypeNoDN` shape, with two entries whose
identity strings differ (empty and non-empty). -/
theorem c5_decode_no_identity_shape_nodn_witness :
    Decode ⟨"", []⟩ (.struct [.mk "String" (some "string") false (.str "")]) =
      .error .noDN ∧
    Decode ⟨"cn=users,dc=example,dc=com", []⟩
        (.struct [.mk "String" (some "string") false (.str "test")]) = .error .noDN :=
  ⟨c5_decode_no_identity_shape_nodn ⟨"", []⟩ _ (by decide),
   c5_decode_no_identity_shape_nodn ⟨"cn=users,dc=example,dc=com", []⟩ _ (by decide)⟩

mutual
/-- The encode field traversal never produces `NoDN`. -/
theorem encodeStructFields_ne_noDN : ∀ (fs : List Field),
    encodeStructFields fs ≠ .error .noDN
  | [] => by simp [encodeStructFields]
  | .mk n t a v :: rest => by
    rw [encodeStructFields]
    cases hc : encodeFieldCore n a (parseTag n t) v with
    | error err =>
      have h5 := encodeFieldCore_ne_noDN n a (parseTag n t) v
      rw [hc] at h5
      simpa using h5
    | ok p =>
      obtain ⟨as1, d1⟩ := p
      cases hr : encodeStructFields rest with
      | error err =>
        have h5 := encodeStructFields_ne_noDN rest
        rw [hr] at h5
        simpa using h5
      | ok q => simp

/-- Per-field encode step never produces `NoDN`. -/
theorem encodeFieldCore_ne_noDN (n : String) (a : Bool) (info : TagInfo) (v : Value) :
    encodeFieldCore n a info v ≠ .error .noDN := by
  have hfield := encodeField_ne_noDN info.attrName v info.omitempty
  rw [encodeFieldCore.eq_def]
  split
  · simp
  split
  · simp
  split
  · simp
  split
  · simp
  · split
    · cases v with
      | struct fs => exact encodeStructFields_ne_noDN fs
      | ptr p ez => cases p <;> simp
      | _ => simp
    · cases heq2 : encodeField info.attrName v info.omitempty with
      | error err =>
        rw [heq2] at hfield
        simp only [heq2]
        simpa using hfield
      | ok pr =>
        obtain ⟨attr?, d⟩ := pr
        simp only [heq2]
        intro hcontra
        split at hcontra <;> cases hcontra

/-- The type coercer never produces `NoDN`. -/
theorem encodeField_ne_noDN : ∀ (a : String) (fv : Value) (oe : Bool),
    encodeField a fv oe ≠ .error .noDN
  | a, .str s, oe => by
    rw [encodeField]; split; · simp
    split <;> simp
  | a, .bytes b, oe => by
    rw [encodeField]; split; · simp
    split <;> simp
  | a, .intV m, oe => by
    rw [encodeField]; split; · simp
    split <;> simp
  | a, .uintV m, oe => by
    rw [encodeField]; split; · simp
    split <;> simp
  | a, .boolV b, oe => by
    rw [encodeField]; split; · simp
    split <;> simp
  | a, .floatV q, oe => by
    rw [encodeField]; split; · simp
    split <;> simp
  | a, .timeV t, oe => by
    rw [encodeField]; split; · simp
    split <;> simp
  | a, .struct fs, oe => by
    rw [encodeField]; split; · simp
    split <;> simp
  | a, .custom (some b), oe => by
    rw [encodeField]; split; · simp
    split <;> simp
  | a, .custom none, oe => by
    rw [encodeField]; split; · simp
    split <;> simp
  | a, .ptr none ez, oe => by
    rw [encodeField]; split; · simp
    split <;> simp
  | a, .ptr (some p) ez, oe => by
    rw [encodeField]
    split
    · simp
    split
    · simp
    · exact encodeField_ne_noDN a p oe
  | a, .slice none ez, oe => by
    rw [encodeField]; split; · simp
    split <;> simp
  | a, .slice (some l) ez, oe => by
    rw [encodeField]
    split
    · simp
    split
    · simp
    · cases he : encodeElems a l none with
      | error err =>
        have h5 := encodeElems_ne_noDN a l none
        rw [he] at h5
        simp only [he]
        simpa using h5
      | ok o => simp [he]

/-- The slice-element encode loop never produces `NoDN`. -/
theorem encodeElems_ne_noDN : ∀ (a : String) (l : List Value) (acc : Option EntryAttribute),
    encodeElems a l acc ≠ .error .noDN
  | a, [], acc => by simp [encodeElems]
  | a, v :: vs, acc => by
    rw [encodeElems]
    cases hf : encodeField a v true with
    | error err =>
      have h5 := encodeField_ne_noDN a v true
      rw [hf] at h5
      simpa using h5
    | ok p =>
      obtain ⟨a?, d⟩ := p
      cases acc with
      | none => exact encodeElems_ne_noDN a vs a?
      | some merged =>
        cases a? with
        | none => simp
        | some av => exact encodeElems_ne_noDN a vs _
end

/-- C6: during encoding, a traversal error always wins over `NoDN` — the
head field's error is the whole result; a traversal error propagates
unchanged through `Encode` and is never `NoDN`; and `Encode` yields `NoDN`
exactly when the full traversal completed without any field resolving the
identity. -/
theorem c6_nodn_checked_after_traversal (fs : List Field) :
    (∀ n t a v rest err, fs = .mk n t a v :: rest →
      encodeFieldCore n a (parseTag n t) v = .error err →
      encodeStructFields fs = .error err) ∧
    (∀ err, encodeStructFields fs = .error err →
      Encode (.struct fs) = .error err ∧ err ≠ .noDN) ∧
    (Encode (.struct fs) = .error .noDN ↔
      ∃ attrs, encodeStructFields fs = .ok (attrs, "")) := by
  refine ⟨?_, ?_, ?_⟩
  · intro n t a v rest err hfs hcore
    subst hfs
    rw [encodeStructFields, hcore]
  · intro err herr
    constructor
    · simp [Encode, stripPtrs, herr]
    · intro hne
      subst hne
      exact encodeStructFields_ne_noDN fs herr
  · constructor
    · intro hnodn
      cases hsf : encodeStructFields fs with
      | error e =>
        simp [Encode, stripPtrs, hsf] at hnodn
        subst hnodn
        exact absurd hsf (encodeStructFields_ne_noDN fs)
      | ok p =>
        obtain ⟨attrs, d⟩ := p
        refine ⟨attrs, ?_⟩
        by_cases hd : d = ""
        · subst hd
          rfl
        · simp [Encode, stripPtrs, hsf, hd] at hnodn
    · rintro ⟨attrs, hok⟩
      simp [Encode, stripPtrs, hok]

/-- Witness for C6: a record whose head field has an unsupported type and
which lacks any identity field fails with that type error, not `NoDN`. -/
theorem c6_nodn_checked_after_traversal_witness :
    encodeStructFields [Field.mk "T" none false (.timeV 3)] = .error (.unsupportedType "t") ∧
    Encode (.struct [Field.mk "T" none false (.timeV 3)]) = .error (.unsupportedType "t") ∧
    EncErr.unsupportedType "t" ≠ .noDN := by
  have hcore : encodeFieldCore "T" false (parseTag "T" none) (.timeV 3) =
      .error (.unsupportedType "t") := by
    simp +decide [encodeFieldCore, encodeField, Value.isZero]
  have h1 := (c6_nodn_checked_after_traversal [Field.mk "T" none false (.timeV 3)]).1
    "T" none false (.timeV 3) [] _ rfl hcore
  have h2 := (c6_nodn_checked_after_traversal [Field.mk "T" none false (.timeV 3)]).2.1
    _ h1
  exact ⟨h1, h2.1, h2.2⟩

/-- C4 counterexample: a field tagged `DN` resolves case-insensitively to
the identity, yet the structural no-identity check rejects the shape — the
code's `hasDN` compares the resolved name to `"dn"` case-sensitively. -/
theorem c4_counterexample_hasdn_case_sensitive :
    strToLower (parseTag "X" (some "DN")).attrName = "dn" ∧
    Decode ⟨"cn=u", []⟩ (.struct [.mk "X" (some "DN") false (.str "")]) =
      .error .noDN := by
  constructor
  · decide
  · have hh : hasDN (.struct [Field.mk "X" (some "DN") false (.str "")]) = false := by
      rw [hasDN, hasDNFields]
      simp +decide [hasDNFields]
    simp [Decode, hh]

/-- C4 amended: attribute lookup is case-insensitive, and the per-field
decode step treats any letter case of `dn` as the identity (so does the
encoder's coercer); but `hasDN` compares the resolved name to `dn`
case-sensitively, so only an exactly-lower-case resolution passes the
structural check. -/
theorem c4_amended_case_insensitive_except_hasdn :
    (∀ (e : Entry) (n1 n2 : String), strToLower n1 = strToLower n2 →
      getAttributeValues e n1 = getAttributeValues e n2) ∧
    (∀ (e : Entry) (n : String) (t : Option String) (v : Value),
      isUpperFirst n = true → (parseTag n t).ignored = false →
      strToLower (parseTag n t).attrName = "dn" →
      decodeFieldStep e (.mk n t false v) =
        (match setValue v e.dn with
         | .error err => .error err
         | .ok w => .ok (.mk n t false w))) ∧
    (∀ (name : String) (s : String), strToLower name = "dn" →
      encodeField name (.str s) false = .ok (none, s)) ∧
    (∀ (n : String) (t : Option String) (a : Bool) (v : Value),
      (parseTag n t).attrName ≠ "dn" →
      hasDNFields [.mk n t a v] = (a && hasDN v)) := by
  refine ⟨?_, ?_, ?_, ?_⟩
  · intro e n1 n2 h
    simp [getAttributeValues, h]
  · intro e n t v hup hig hdn
    cases v <;>
      simp +decide only [decodeFieldStep, hup, hig, hdn, Bool.not_true,
        Bool.false_eq_true, if_false, beq_self_eq_true, if_true]
  · intro name s h
    simp [encodeField, h]
  · intro n t a v h
    rw [hasDNFields, hasDNFields]
    simp [h]

/-- Witness for the C4 amended theorem at concrete inputs: a `Dn`-named
attribute is found for a `dN`-resolved field, a field tagged `dN` decodes
the identity, encoding accepts `DN` as identity, and an ignored-case tag
fails `hasDN`. -/
theorem c4_amended_case_insensitive_except_hasdn_witness :
    getAttributeValues ⟨"", [NewEntryAttribute "Beta" ["1"]]⟩ "beta" =
      getAttributeValues ⟨"", [NewEntryAttribute "Beta" ["1"]]⟩ "BETA" ∧
    decodeFieldStep ⟨"cn=u", []⟩ (.mk "A" (some "dN") false (.str "")) =
      (match setValue (.str "") "cn=u" with
       | .error err => .error err
       | .ok w => .ok (.mk "A" (some "dN") false w)) ∧
    encodeField "DN" (.str "cn=u") false = .ok (none, "cn=u") ∧
    hasDNFields [.mk "X" (some "DN") false (.str "")] =
      (false && hasDN (.str "")) :=
  ⟨c4_amended_case_insensitive_except_hasdn.1 _ "beta" "BETA" (by decide),
   c4_amended_case_insensitive_except_hasdn.2.1 ⟨"cn=u", []⟩ "A" (some "dN")
     (.str "") (by decide) (by decide) (by decide),
   c4_amended_case_insensitive_except_hasdn.2.2.1 "DN" "cn=u" (by decide),
   c4_amended_case_insensitive_except_hasdn.2.2.2 "X" (some "DN") false
     (.str "") (by decide)⟩

/-- C8 counterexample: an identity field tagged omit-if-empty with a zero
(non-text) value IS skipped by the omit-empty rule — the encoder reports
`NoDN`; without the tag the same record reports `UnsupportedDNType`,
showing the skip happened because of the tag. -/
theorem c8_counterexample_identity_skipped_when_omitempty :
    Encode (.struct [.mk "A" (some "dn,omitempty") false (.intV 0)]) =
      .error .noDN ∧
    Encode (.struct [.mk "A" (some "dn") false (.intV 0)]) =
      .error .unsupportedDNType := by
  have h1 : parseTag "A" (some "dn,omitempty") = ⟨"dn", false, true, false⟩ := by decide
  have h2 : parseTag "A" (some "dn") = ⟨"dn", false, false, false⟩ := by decide
  constructor
  · simp +decide [Encode, stripPtrs, encodeStructFields, encodeFieldCore, encodeField,
      h1, Value.isZero, emptyAttr]
  · simp +decide [Encode, stripPtrs, encodeStructFields, encodeFieldCore, encodeField,
      h2, Value.isZero]

/-- C8 amended: a non-identity omit-if-empty field with a zero value is
skipped and contributes nothing; the identity field is exempt from the
field-walker's zero-value skip, and for text/byte-buffer identity values the
omit-empty tag never changes the field's encoding — but the coercion-level
omit-empty check still skips a zero identity value, yielding an empty
attribute and no identity (hence `NoDN`) rather than a type error. -/
theorem c8_amended_omitempty_zero_skip :
    (∀ (n : String) (t : Option String) (anon : Bool) (v : Value),
      (parseTag n t).omitempty = true →
      strToLower (parseTag n t).attrName ≠ "dn" → v.isZero = true →
      encodeFieldCore n anon (parseTag n t) v = .ok ([], "")) ∧
    (∀ (n : String) (anon : Bool) (info : TagInfo) (v : Value),
      strToLower info.attrName = "dn" →
      ((∃ s, v = Value.str s) ∨ (∃ b, v = Value.bytes b)) →
      encodeFieldCore n anon info v =
        encodeFieldCore n anon ⟨info.attrName, info.ignored, false, info.readOnly⟩ v) ∧
    (∀ (n : String) (info : TagInfo) (v : Value),
      isUpperFirst n = true → info.ignored = false → info.readOnly = false →
      strToLower info.attrName = "dn" → info.omitempty = true → v.isZero = true →
      encodeFieldCore n false info v = .ok ([emptyAttr info.attrName], "")) := by
  refine ⟨?_, ?_, ?_⟩
  · intro n t anon v ho hdn hz
    cases v with
    | ptr p ez => cases p <;> simp [encodeFieldCore, ho, hdn, hz]
    | _ => simp [encodeFieldCore, ho, hdn, hz]
  · intro n anon info v hdn hsv
    rcases hsv with ⟨s, rfl⟩ | ⟨b, rfl⟩
    · by_cases hz : (Value.str s).isZero <;>
        simp [encodeFieldCore, encodeField, hdn, hz, Value.isZero] <;>
        simp [Value.isZero] at hz <;>
        simp [hz]
    · cases b with
      | none => simp [encodeFieldCore, encodeField, hdn, Value.isZero]
      | some bb => simp [encodeFieldCore, encodeField, hdn, Value.isZero]
  · intro n info v hup hig hro hdn ho hz
    cases v with
    | ptr p ez =>
      cases p with
      | none => simp [encodeFieldCore, hup, hig, hro, hdn, hz]
      | some q => simp [Value.isZero] at hz
    | custom d =>
      cases d with
      | none => simp [encodeFieldCore, encodeField, hup, hig, hro, hdn, ho, hz]
      | some bb => simp [Value.isZero] at hz
    | slice es ez =>
      cases es with
      | none => simp [encodeFieldCore, encodeField, hup, hig, hro, hdn, ho, hz]
      | some l => simp [Value.isZero] at hz
    | _ => simp [encodeFieldCore, encodeField, hup, hig, hro, hdn, ho, hz]

/-- Witness for the C8 amended theorem: a zero `omitempty` non-identity int
contributes nothing; omitting `omitempty` on a text identity changes
nothing; a zero identity with `omitempty` yields an empty attribute and no
identity. -/
theorem c8_amended_omitempty_zero_skip_witness :
    encodeFieldCore "IntZero" false (parseTag "IntZero" (some "intZero, omitempty"))
        (.intV 0) = .ok ([], "") ∧
    encodeFieldCore "A" false ⟨"dn", false, true, false⟩ (.str "cn=u") =
      encodeFieldCore "A" false ⟨"dn", false, false, false⟩ (.str "cn=u") ∧
    encodeFieldCore "A" false ⟨"dn", false, true, false⟩ (.intV 0) =
      .ok ([emptyAttr "dn"], "") :=
  ⟨c8_amended_omitempty_zero_skip.1 "IntZero" (some "intZero, omitempty") false
     (.intV 0) (by decide) (by decide) (by decide),
   c8_amended_omitempty_zero_skip.2.1 "A" false ⟨"dn", false, true, false⟩
     (.str "cn=u") (by decide) (Or.inl ⟨"cn=u", rfl⟩),
   c8_amended_omitempty_zero_skip.2.2 "A" ⟨"dn", false, true, false⟩ (.intV 0)
     (by decide) (by decide) (by decide) (by decide) (by decide) (by decide)⟩

/-- Elementwise specification of the decode slice loop. -/
theorem decodeElems_forall2 : ∀ (ez : Value) (vals : List String) (l : List Value),
    decodeElems ez vals = .ok l →
    List.Forall₂ (fun a w => setValue ez a = .ok w) vals l
  | ez, [], l => by
    intro h
    simp [decodeElems] at h
    subst h
    exact List.Forall₂.nil
  | ez, a :: rest, l => by
    intro h
    rw [decodeElems] at h
    cases hs : setValue ez a with
    | error err => rw [hs] at h; cases h
    | ok v =>
      rw [hs] at h
      cases hr : decodeElems ez rest with
      | error err => rw [hr] at h; cases h
      | ok l2 =>
        rw [hr] at h
        cases h
        exact List.Forall₂.cons hs (decodeElems_forall2 ez rest l2 hr)

/-- C9 counterexample: the decode slice loop appends to the existing
elements, so a pre-populated collection does not end with "exactly as many
elements as the attribute has values". -/
theorem c9_counterexample_slice_appends :
    decodeStructField (.slice (some [.str "a"]) (.str "")) ["b"] =
      .ok (.slice (some [.str "a", .str "b"]) (.str "")) ∧
    [Value.str "a", Value.str "b"].length ≠ (["b"] : List String).length := by
  constructor
  · simp [decodeStructField, decodeElems, setValue]
  · decide

/-- C9 amended: a scalar (non-collection) target bound to one or more
values is set from only the first value (none ⇒ untouched, extras dropped);
a non-byte collection target receives one coerced element per attribute
value appended in entry order — ending with exactly the attribute's value
count only when it starts empty or nil. -/
theorem c9_amended_first_value_and_append :
    (∀ (v : Value), (∀ es ez, v ≠ .slice es ez) →
      (decodeStructField v [] = .ok v ∧
       ∀ a rest, decodeStructField v (a :: rest) = setValue v a)) ∧
    (∀ (es : Option (List Value)) (ez : Value),
      decodeStructField (.slice es ez) [] = .ok (.slice es ez)) ∧
    (∀ (es : Option (List Value)) (ez : Value) (vals : List String) (l : List Value),
      vals ≠ [] → decodeElems ez vals = .ok l →
      decodeStructField (.slice es ez) vals = .ok (.slice (some (es.getD [] ++ l)) ez) ∧
      List.Forall₂ (fun a w => setValue ez a = .ok w) vals l ∧
      l.length = vals.length ∧
      (es.getD [] ++ l).length = (es.getD []).length + vals.length) := by
  refine ⟨?_, ?_, ?_⟩
  · intro v hv
    cases v with
    | slice es ez => exact absurd rfl (hv es ez)
    | bytes b => exact ⟨by simp [decodeStructField], fun a rest => by simp [decodeStructField]⟩
    | _ => exact ⟨by simp [decodeStructField], fun a rest => by simp [decodeStructField]⟩
  · intro es ez
    simp [decodeStructField]
  · intro es ez vals l hne hdec
    have hf2 := decodeElems_forall2 ez vals l hdec
    have hlen : l.length = vals.length := hf2.length_eq.symm
    refine ⟨?_, hf2, hlen, ?_⟩
    · cases vals with
      | nil => exact absurd rfl hne
      | cons a rest => simp [decodeStructField, hdec]
    · simp [hlen]

/-- Witness for the C9 amended theorem: the spec's own examples — integer
scalar bound to `["4","22"]` takes `4`; a string list bound to three values
ends with exactly three elements in order. -/
theorem c9_amended_first_value_and_append_witness :
    decodeStructField (.intV 0) ["4", "22"] = setValue (.intV 0) "4" ∧
    decodeStructField (.slice none (.str "")) ["one", "two", "three"] =
      .ok (.slice (some ((none : Option (List Value)).getD [] ++
        [.str "one", .str "two", .str "three"])) (.str "")) := by
  refine ⟨((c9_amended_first_value_and_append.1 (.intV 0) ?_).2 "4" ["22"]), ?_⟩
  · intro es ez h
    cases h
  · have hdec : decodeElems (.str "") ["one", "two", "three"] =
        .ok [.str "one", .str "two", .str "three"] := by
      simp [decodeElems, setValue]
    exact ((c9_amended_first_value_and_append.2.2 none (.str "")
      ["one", "two", "three"] [.str "one", .str "two", .str "three"]
      (by decide) hdec).1)

/-! ## Decimal text lemmas -/

/-- A digit character is a digit and reads back to its digit. -/
theorem digitChar_spec (d : Nat) (h : d < 10) :
    (digitChar d).isDigit = true ∧ (digitChar d).toNat - 48 = d := by
  interval_cases d <;> exact ⟨by decide, by decide⟩

/-- A digit character is not a sign or dot character. -/
theorem isDigit_not_sign (c : Char) (h : c.isDigit = true) :
    (c == '-') = false ∧ (c == '+') = false ∧ (c == '.') = false := by
  refine ⟨?_, ?_, ?_⟩
  · cases hc : c == '-' with
    | false => rfl
    | true => exact absurd h (by rw [eq_of_beq hc]; decide)
  · cases hc : c == '+' with
    | false => rfl
    | true => exact absurd h (by rw [eq_of_beq hc]; decide)
  · cases hc : c == '.' with
    | false => rfl
    | true => exact absurd h (by rw [eq_of_beq hc]; decide)

/-- Reading back the digit characters of a digit list. -/
theorem digitsVal_digitChar (A : List Nat) (h : ∀ d ∈ A, d < 10) :
    digitsVal (A.reverse.map digitChar) = Nat.ofDigits 10 A := by
  rw [digitsVal, List.map_map]
  have h1 : (A.reverse.map ((fun c => c.toNat - 48) ∘ digitChar)) = A.reverse.map id := by
    apply List.map_congr_left
    intro d hd
    have hd10 : d < 10 := h d (List.mem_reverse.mp hd)
    exact (digitChar_spec d hd10).2
  rw [h1, List.map_id, List.reverse_reverse]

/-- The decimal text of a natural number is nonempty, all digits, and reads
back to the number. -/
theorem natToStr_spec (n : Nat) :
    (natToStr n).data ≠ [] ∧ (∀ c ∈ (natToStr n).data, c.isDigit = true) ∧
      digitsVal (natToStr n).data = n := by
  by_cases h : n = 0
  · subst h
    refine ⟨by decide, ?_, by decide⟩
    intro c hc
    have hc0 : c = '0' := by simpa [natToStr] using hc
    subst hc0
    decide
  · have hne : Nat.digits 10 n ≠ [] := Nat.digits_ne_nil_iff_ne_zero.mpr h
    have hlt : ∀ d ∈ Nat.digits 10 n, d < 10 := fun d hd =>
      Nat.digits_lt_base (by norm_num) hd
    have hdata : (natToStr n).data = (Nat.digits 10 n).reverse.map digitChar := by
      rw [natToStr, if_neg (by simpa using h)]
    refine ⟨?_, ?_, ?_⟩
    · rw [hdata]
      simp only [ne_eq, List.map_eq_nil_iff, List.reverse_eq_nil_iff]
      exact hne
    · intro c hc
      rw [hdata] at hc
      obtain ⟨d, hd, rfl⟩ := List.mem_map.mp hc
      exact (digitChar_spec d (hlt d (List.mem_reverse.mp hd))).1
    · rw [hdata, digitsVal_digitChar _ hlt, Nat.ofDigits_digits]

/-- The digit text of a natural number passes the all-digits check. -/
theorem allDigits_natToStr (n : Nat) : allDigits (natToStr n).data = true := by
  obtain ⟨h1, h2, _⟩ := natToStr_spec n
  rw [allDigits, Bool.and_eq_true]
  constructor
  · cases hcs : (natToStr n).data with
    | nil => exact absurd hcs h1
    | cons c rest => rfl
  · rw [List.all_eq_true]
    intro c hc
    exact h2 c hc

/-- `strconv.ParseUint` inverts `%d` on 64-bit naturals. -/
theorem parseUintGo_natToStr (n : Nat) (h : n < 2 ^ 64) :
    parseUintGo (natToStr n) = some n := by
  rw [parseUintGo, allDigits_natToStr n]
  simp only [if_true]
  rw [(natToStr_spec n).2.2]
  split
  · rfl
  · rename_i hcon
    exact absurd h hcon

/-- Appending Go strings concatenates their character lists. -/
theorem appendData (a b : String) : (a ++ b).data = a.data ++ b.data := by
  cases a
  cases b
  rfl

/-- `strconv.ParseInt` inverts `%d` on 64-bit integers. -/
theorem parseIntGo_intToStr (i : Int) (h1 : -(2 ^ 63) ≤ i) (h2 : i < 2 ^ 63) :
    parseIntGo (intToStr i) = some i := by
  obtain ⟨hne, hdig, hval⟩ := natToStr_spec i.natAbs
  by_cases hneg : i < 0
  · have hd : (intToStr i).data = '-' :: (natToStr i.natAbs).data := by
      rw [intToStr, if_pos hneg, appendData]
      rfl
    rw [parseIntGo, hd]
    simp only [beq_self_eq_true, if_true]
    rw [allDigits_natToStr, hval]
    have hle : (i.natAbs : Int) ≤ 2 ^ 63 := by omega
    have hi : -(i.natAbs : Int) = i := by omega
    have hle2 : |i| ≤ 2 ^ 63 := by rw [Int.abs_eq_natAbs]; omega
    have hi2 : -|i| = i := by rw [Int.abs_eq_natAbs]; omega
    have hle3 : |i| ≤ 9223372036854775808 := by rw [Int.abs_eq_natAbs]; omega
    simp [hle, hi, hle2, hi2, hle3]
  · have hd : (intToStr i).data = (natToStr i.natAbs).data := by
      rw [intToStr, if_neg hneg]
    rw [parseIntGo, hd]
    cases hcs : (natToStr i.natAbs).data with
    | nil => exact absurd hcs hne
    | cons c rest =>
      have hcd : c.isDigit = true := hdig c (by rw [hcs]; exact List.mem_cons_self c rest)
      obtain ⟨hm, hp, _⟩ := isDigit_not_sign c hcd
      simp only [hm, hp, Bool.false_eq_true, if_false]
      rw [← hcs, allDigits_natToStr, hval]
      have hlt : i.natAbs < 2 ^ 63 := by omega
      have heq : ((i.natAbs : Nat) : Int) = i := by omega
      have heq2 : |i| = i := by rw [Int.abs_eq_natAbs]; omega
      have hlt3 : i.natAbs < 9223372036854775808 := by omega
      simp [hlt, heq, heq2, hlt3]

/-- `splitAtDot` splits at the first dot. -/
theorem splitAtDot_append (A B : List Char) (h : ∀ c ∈ A, (c == '.') = false) :
    splitAtDot (A ++ '.' :: B) = (A, some B) := by
  induction A with
  | nil =>
    rw [List.nil_append, splitAtDot]
    simp
  | cons c cs ih =>
    rw [List.cons_append, splitAtDot, h c (List.mem_cons_self c cs)]
    simp only [Bool.false_eq_true, if_false]
    rw [ih (fun x hx => h x (List.mem_cons_of_mem c hx))]

/-- A decimal text of the shape an `%f` format produces parses successfully. -/
theorem parseFloatGo_shape (s1 : String) (hs : s1 = "-" ∨ s1 = "") (A B : String)
    (hA : A.data ≠ []) (hAd : ∀ c ∈ A.data, c.isDigit = true)
    (hBd : ∀ c ∈ B.data, c.isDigit = true) :
    (parseFloatGo (s1 ++ A ++ "." ++ B)).isSome = true := by
  have hdot : ∀ c ∈ A.data, (c == '.') = false := fun c hc =>
    (isDigit_not_sign c (hAd c hc)).2.2
  have hsplit := splitAtDot_append A.data B.data hdot
  have hallA : A.data.all (·.isDigit) = true := List.all_eq_true.mpr hAd
  have hallB : B.data.all (·.isDigit) = true := List.all_eq_true.mpr hBd
  have hAne : A.data.isEmpty = false := by
    cases hA' : A.data with
    | nil => exact absurd hA' hA
    | cons c r => rfl
  rcases hs with rfl | rfl
  · have hdata : ("-" ++ A ++ "." ++ B).data = '-' :: (A.data ++ '.' :: B.data) := by
      rw [appendData, appendData, appendData]
      simp
    simp [parseFloatGo, hdata, hsplit, hallA, hallB, hAne]
  · have hdata : ("" ++ A ++ "." ++ B).data = A.data ++ '.' :: B.data := by
      rw [appendData, appendData, appendData]
      simp
    cases hA' : A.data with
    | nil => exact absurd hA' hA
    | cons c r =>
      have hcd : c.isDigit = true := hAd c (by rw [hA']; exact List.mem_cons_self c r)
      obtain ⟨hm, hp, _⟩ := isDigit_not_sign c hcd
      rw [hA'] at hsplit
      rw [List.cons_append] at hsplit
      rw [hA'] at hallA hAne
      simp [parseFloatGo, hA', hm, hp, hsplit, hallA, hallB, hAne]

/-! ## Structural equality soundness and scalar round-trip lemmas -/

set_option maxHeartbeats 1600000 in
mutual
/-- `vbeq` implies equality. -/
theorem vbeq_sound (a b : Value) (h : vbeq a b = true) : a = b := by
  rw [vbeq.eq_def] at h
  split at h
  · rw [eq_of_beq h]
  · rw [eq_of_beq h]
  · rw [eq_of_beq h]
  · rw [eq_of_beq h]
  · rw [eq_of_beq h]
  · rw [eq_of_beq h]
  · rw [eq_of_beq h]
  · rw [eq_of_beq h]
  · rw [Bool.and_eq_true] at h
    rw [vbeq_sound _ _ h.1, vbeq_sound _ _ h.2]
  · rw [vbeq_sound _ _ h]
  · rw [vbeq_sound _ _ h]
  · rw [Bool.and_eq_true] at h
    rw [vbeqList_sound _ _ h.1, vbeq_sound _ _ h.2]
  · rw [vbeqFields_sound _ _ h]
  · cases h

/-- `vbeqList` implies equality. -/
theorem vbeqList_sound (l m : List Value) (h : vbeqList l m = true) : l = m := by
  rw [vbeqList.eq_def] at h
  split at h
  · rfl
  · rw [Bool.and_eq_true] at h
    rw [vbeq_sound _ _ h.1, vbeqList_sound _ _ h.2]
  · cases h

/-- `vbeqFields` implies equality. -/
theorem vbeqFields_sound (l m : List Field) (h : vbeqFields l m = true) : l = m := by
  rw [vbeqFields.eq_def] at h
  split at h
  · rfl
  · rw [Bool.and_eq_true, Bool.and_eq_true, Bool.and_eq_true, Bool.and_eq_true] at h
    obtain ⟨⟨⟨⟨h1, h2⟩, h3⟩, h4⟩, h5⟩ := h
    rw [eq_of_beq h1, eq_of_beq h2, eq_of_beq h3, vbeq_sound _ _ h4,
      vbeqFields_sound _ _ h5]
  · cases h
end

/-- The `%f` output of a float parses successfully. -/
theorem parseFloatGo_fmtFloat (q : Rat) : (parseFloatGo (fmtFloat q)).isSome = true := by
  simp only [fmtFloat]
  apply parseFloatGo_shape
  · by_cases hq : q < 0 <;> simp [hq]
  · exact (natToStr_spec _).1
  · exact (natToStr_spec _).2.1
  · intro c hc
    rcases List.mem_append.mp hc with h0 | h1
    · rw [List.eq_of_mem_replicate h0]
      decide
    · exact (natToStr_spec _).2.1 c h1

/-- Decoding the encoded text of a round-trippable scalar into a fresh zero
value of its shape succeeds and agrees with the original up to floats. -/
theorem setValue_scalarText : ∀ (v : Value), scalarOK v = true →
    ∃ w, setValue (shapeZero v) (scalarText v) = .ok w ∧ veq w v = true
  | .str s, _ => by
    refine ⟨.str s, ?_, ?_⟩
    · simp [shapeZero, scalarText, setValue]
    · simp [veq]
  | .bytes (some b), _ => by
    refine ⟨.bytes (some b), ?_, ?_⟩
    · simp [shapeZero, scalarText, setValue]
    · simp [veq]
  | .bytes none, h => by simp [scalarOK] at h
  | .intV n, h => by
    rw [scalarOK, Bool.and_eq_true] at h
    have h1 : -(2 ^ 63 : Int) ≤ n := of_decide_eq_true h.1
    have h2 : n < 2 ^ 63 := of_decide_eq_true h.2
    refine ⟨.intV n, ?_, ?_⟩
    · simp [shapeZero, scalarText, setValue, parseIntGo_intToStr n h1 h2]
    · simp [veq]
  | .uintV n, h => by
    rw [scalarOK] at h
    have h1 : n < 2 ^ 64 := of_decide_eq_true h
    refine ⟨.uintV n, ?_, ?_⟩
    · simp [shapeZero, scalarText, setValue, parseUintGo_natToStr n h1]
    · simp [veq]
  | .boolV b, _ => by
    refine ⟨.boolV b, ?_, ?_⟩
    · cases b <;> simp +decide [shapeZero, scalarText, setValue]
    · simp [veq]
  | .floatV q, _ => by
    obtain ⟨r, hr⟩ := Option.isSome_iff_exists.mp (parseFloatGo_fmtFloat q)
    refine ⟨.floatV r, ?_, ?_⟩
    · simp [shapeZero, scalarText, setValue, hr]
    · simp [veq]
  | .ptr (some p) ez, h => by
    rw [scalarOK, Bool.and_eq_true] at h
    have hez : ez = shapeZero p := vbeq_sound _ _ h.2
    obtain ⟨w, hw, hv⟩ := setValue_scalarText p h.1
    refine ⟨.ptr (some w) ez, ?_, ?_⟩
    · rw [shapeZero, scalarText, setValue, hez, hw]
    · rw [veq]
      exact hv
  | .ptr none _, h => by simp [scalarOK] at h
  | .timeV _, h => by simp [scalarOK] at h
  | .custom _, h => by simp [scalarOK] at h
  | .slice _ _, h => by simp [scalarOK] at h
  | .struct _, h => by simp [scalarOK] at h

/-- Encoding a round-trippable scalar yields a single-value attribute with
its text (under the omit-empty flag only when the dereferenced value is
non-zero). -/
theorem encodeField_scalar : ∀ (v : Value) (name : String) (oe : Bool),
    scalarOK v = true → strToLower name ≠ "dn" →
    (oe = true → (derefAll v).isZero = false) →
    encodeField name v oe = .ok (some (NewEntryAttribute name [scalarText v]), "")
  | .str s, name, oe, _, hdn, hz => by
    cases oe
    · simp [encodeField, hdn, scalarText]
    · have hz' : (Value.str s).isZero = false := by simpa [derefAll] using hz rfl
      simp [encodeField, hdn, hz', scalarText]
  | .bytes (some b), name, oe, _, hdn, hz => by
    cases oe
    · simp [encodeField, hdn, scalarText]
    · have hz' : (Value.bytes (some b)).isZero = false := by simp [Value.isZero]
      simp [encodeField, hdn, hz', scalarText]
  | .bytes none, name, oe, h, _, _ => by simp [scalarOK] at h
  | .intV n, name, oe, _, hdn, hz => by
    cases oe
    · simp [encodeField, hdn, scalarText]
    · have hz' : (Value.intV n).isZero = false := by simpa [derefAll] using hz rfl
      simp [encodeField, hdn, hz', scalarText]
  | .uintV n, name, oe, _, hdn, hz => by
    cases oe
    · simp [encodeField, hdn, scalarText]
    · have hz' : (Value.uintV n).isZero = false := by simpa [derefAll] using hz rfl
      simp [encodeField, hdn, hz', scalarText]
  | .boolV b, name, oe, _, hdn, hz => by
    cases oe
    · simp [encodeField, hdn, scalarText]
    · have hz' : (Value.boolV b).isZero = false := by simpa [derefAll] using hz rfl
      simp [encodeField, hdn, hz', scalarText]
  | .floatV q, name, oe, _, hdn, hz => by
    cases oe
    · simp [encodeField, hdn, scalarText]
    · have hz' : (Value.floatV q).isZero = false := by simpa [derefAll] using hz rfl
      simp [encodeField, hdn, hz', scalarText]
  | .ptr (some p) ez, name, oe, h, hdn, hz => by
    rw [scalarOK, Bool.and_eq_true] at h
    have hds : derefAll (.ptr (some p) ez) = derefAll p := by rw [derefAll]
    have hz2 : oe = true → (derefAll p).isZero = false := by
      intro hoe
      rw [← hds]
      exact hz hoe
    have hrec := encodeField_scalar p name oe h.1 hdn hz2
    have hz' : (Value.ptr (some p) ez).isZero = false := by simp [Value.isZero]
    cases oe
    · simp only [encodeField, Bool.false_and, Bool.false_eq_true, if_false]
      rw [if_neg (by simpa using hdn)]
      rw [hrec, scalarText]
    · simp only [encodeField, hz', Bool.and_false, Bool.true_and, Bool.false_eq_true,
        if_false]
      rw [if_neg (by simpa using hdn)]
      rw [hrec, scalarText]
  | .ptr none _, name, oe, h, _, _ => by simp [scalarOK] at h
  | .timeV _, name, oe, h, _, _ => by simp [scalarOK] at h
  | .custom _, name, oe, h, _, _ => by simp [scalarOK] at h
  | .slice _ _, name, oe, h, _, _ => by simp [scalarOK] at h
  | .struct _, name, oe, h, _, _ => by simp [scalarOK] at h

/-- Accumulator form of the slice-element encode loop on round-trippable
non-zero elements. -/
theorem encodeElems_acc (name : String) (hdn : strToLower name ≠ "dn") :
    ∀ (l : List Value) (acc : EntryAttribute),
    (∀ x ∈ l, scalarOK x = true ∧ (derefAll x).isZero = false) →
    encodeElems name l (some acc) =
      .ok (some ⟨acc.name, acc.values ++ l.map scalarText,
        acc.byteValues ++ l.map scalarText⟩) := by
  intro l
  induction l with
  | nil =>
    intro acc _
    simp [encodeElems]
  | cons v vs ih =>
    intro acc h
    have hv := h v (List.mem_cons_self v vs)
    rw [encodeElems, encodeField_scalar v name true hv.1 hdn (fun _ => hv.2)]
    show encodeElems name vs (some ⟨acc.name, acc.values ++ [scalarText v],
      acc.byteValues ++ [scalarText v]⟩) = _
    rw [ih _ (fun x hx => h x (List.mem_cons_of_mem v hx))]
    simp

/-- The slice-element encode loop on a nonempty round-trippable list yields
one attribute holding the element texts in order. -/
theorem encodeElems_spec (name : String) (hdn : strToLower name ≠ "dn")
    (l : List Value) (hne : l ≠ [])
    (h : ∀ x ∈ l, scalarOK x = true ∧ (derefAll x).isZero = false) :
    encodeElems name l none = .ok (some (NewEntryAttribute name (l.map scalarText))) := by
  cases l with
  | nil => exact absurd rfl hne
  | cons v vs =>
    have hv := h v (List.mem_cons_self v vs)
    rw [encodeElems, encodeField_scalar v name true hv.1 hdn (fun _ => hv.2)]
    show encodeElems name vs (some (NewEntryAttribute name [scalarText v])) = _
    rw [encodeElems_acc name hdn vs _ (fun x hx => h x (List.mem_cons_of_mem v hx))]
    simp [NewEntryAttribute]

/-- Decoding the element texts of a round-trippable slice produces
`veq`-equal elements in order. -/
theorem decodeElems_rt : ∀ (l : List Value) (ez : Value),
    (∀ x ∈ l, scalarOK x = true ∧ vbeq ez (shapeZero x) = true) →
    ∃ ws, decodeElems ez (l.map scalarText) = .ok ws ∧ veqList ws l = true
  | [], ez, _ => ⟨[], by simp [decodeElems], by simp [veqList]⟩
  | v :: vs, ez, h => by
    have hv := h v (List.mem_cons_self v vs)
    have hez : ez = shapeZero v := vbeq_sound _ _ hv.2
    obtain ⟨w, hw, hvw⟩ := setValue_scalarText v hv.1
    obtain ⟨ws, hws, hwsv⟩ := decodeElems_rt vs ez (fun x hx => h x (List.mem_cons_of_mem v hx))
    refine ⟨w :: ws, ?_, ?_⟩
    · rw [hez] at hws
      rw [List.map_cons, decodeElems, hez, hw, hws]
    · rw [veqList, hvw, hwsv]
      rfl

/-- A non-slice value takes only the first provided value. -/
theorem decodeStructField_single (x : Value) (hx : ∀ es ez, x ≠ .slice es ez)
    (a : String) (rest : List String) :
    decodeStructField x (a :: rest) = setValue x a := by
  cases x with
  | slice es ez => exact absurd rfl (hx es ez)
  | _ => simp [decodeStructField]

/-- A non-slice value bound to no values is untouched. -/
theorem decodeStructField_nil (x : Value) :
    decodeStructField x [] = .ok x := by
  cases x <;> simp [decodeStructField]

/-- A zero round-trippable field value is its own shape zero, and is
`veq`-equal to itself. -/
theorem shapeZero_of_zero (v : Value) (hok : fieldValOK v = true)
    (hz : v.isZero = true) : shapeZero v = v ∧ veq v v = true := by
  cases v with
  | str s =>
    have hs : s = "" := by simpa [Value.isZero] using hz
    subst hs
    exact ⟨rfl, by simp [veq]⟩
  | bytes b =>
    have hb : b = none := by simpa [Value.isZero] using hz
    subst hb
    simp [fieldValOK, scalarOK] at hok
  | intV n =>
    have hn : n = 0 := by simpa [Value.isZero] using hz
    subst hn
    exact ⟨rfl, by simp [veq]⟩
  | uintV n =>
    have hn : n = 0 := by simpa [Value.isZero] using hz
    subst hn
    exact ⟨rfl, by simp [veq]⟩
  | boolV b =>
    have hb : b = false := by simpa [Value.isZero] using hz
    subst hb
    exact ⟨rfl, by simp [veq]⟩
  | floatV q =>
    have hq : q = 0 := by simpa [Value.isZero] using hz
    subst hq
    exact ⟨rfl, by simp [veq]⟩
  | timeV x => simp [fieldValOK, scalarOK] at hok
  | custom d => simp [fieldValOK, scalarOK] at hok
  | ptr p ez =>
    have hp : p = none := by simpa [Value.isZero, Option.isNone_iff_eq_none] using hz
    subst hp
    exact ⟨rfl, by simp [veq]⟩
  | slice es ez =>
    have hes : es = none := by simpa [Value.isZero, Option.isNone_iff_eq_none] using hz
    subst hes
    exact ⟨rfl, by simp [veq]⟩
  | struct fs => simp [fieldValOK, scalarOK] at hok

/-- The three leading guards of one encoder traversal step, discharged. -/
theorem encodeFieldCore_go (n : String) (info : TagInfo) (v : Value)
    (hup : isUpperFirst n = true) (hig : info.ignored = false)
    (hro : info.readOnly = false)
    (hguard : (v.isZero && (strToLower info.attrName != "dn") && info.omitempty) = false)
    (hnp : ∀ ez, v ≠ .ptr none ez) :
    encodeFieldCore n false info v =
      (match encodeField info.attrName v info.omitempty with
       | .error e => .error e
       | .ok (attr?, d) =>
         if d != "" then .ok ([], d)
         else .ok ([attr?.getD (emptyAttr info.attrName)], "")) := by
  rw [encodeFieldCore.eq_def]
  rw [if_neg (by simp [hup]), if_neg (by simp [hig, hro]), if_neg (by simp [hguard])]
  split
  · rename_i ez
    exact absurd rfl (hnp ez)
  · simp

/-- An encoder step skipped by the omit-empty zero guard. -/
theorem core_skip (n : String) (info : TagInfo) (v : Value)
    (hup : isUpperFirst n = true) (hig : info.ignored = false)
    (hro : info.readOnly = false)
    (hguard : (v.isZero && (strToLower info.attrName != "dn") && info.omitempty) = true) :
    encodeFieldCore n false info v = .ok ([], "") := by
  rw [encodeFieldCore.eq_def]
  rw [if_neg (by simp [hup]), if_neg (by simp [hig, hro]), if_pos (by simp [hguard])]

/-- An encoder step whose coercion yields a single attribute. -/
theorem core_of_attr (n : String) (info : TagInfo) (v : Value)
    (hup : isUpperFirst n = true) (hig : info.ignored = false)
    (hro : info.readOnly = false)
    (hguard : (v.isZero && (strToLower info.attrName != "dn") && info.omitempty) = false)
    (hnp : ∀ ez, v ≠ .ptr none ez) (attr : EntryAttribute)
    (hef : encodeField info.attrName v info.omitempty = .ok (some attr, "")) :
    encodeFieldCore n false info v = .ok ([attr], "") := by
  rw [encodeFieldCore_go n info v hup hig hro hguard hnp, hef]
  simp

/-- An encoder step whose coercion yields a non-empty identity. -/
theorem core_of_dn (n : String) (info : TagInfo) (v : Value)
    (hup : isUpperFirst n = true) (hig : info.ignored = false)
    (hro : info.readOnly = false)
    (hguard : (v.isZero && (strToLower info.attrName != "dn") && info.omitempty) = false)
    (hnp : ∀ ez, v ≠ .ptr none ez) (d : String) (hd : d ≠ "")
    (hef : encodeField info.attrName v info.omitempty = .ok (none, d)) :
    encodeFieldCore n false info v = .ok ([], d) := by
  rw [encodeFieldCore_go n info v hup hig hro hguard hnp, hef]
  simp [hd]

/-- One traversal step of the encoder on a field satisfying the round-trip
hypotheses produces exactly its specified attributes and identity
contribution. -/
theorem encodeFieldCore_plain (n : String) (t : Option String) (v : Value)
    (hOK : plainFieldOK (.mk n t false v) = true) :
    encodeFieldCore n false (parseTag n t) v =
      .ok (fieldAttrs (.mk n t false v), dnContrib (.mk n t false v)) := by
  rw [plainFieldOK] at hOK
  simp only [Field.name, Field.tag, Field.anonymous, Field.val, Bool.not_true,
    Bool.and_eq_true, Bool.not_eq_true'] at hOK
  obtain ⟨⟨⟨⟨hup, hig⟩, hro⟩, -⟩, hrest⟩ := hOK
  by_cases hdn : (lowName (.mk n t false v) == "dn") = true
  · -- identity field
    rw [if_pos hdn, Bool.and_eq_true] at hrest
    have hexact : (parseTag n t).attrName = "dn" := eq_of_beq hrest.1
    have hlow : strToLower (parseTag n t).attrName = "dn" := by rw [hexact]; decide
    have hguard : (v.isZero && (strToLower (parseTag n t).attrName != "dn") &&
        (parseTag n t).omitempty) = false := by
      simp [hlow]
    have hfa : fieldAttrs (.mk n t false v) = [] := by
      rw [fieldAttrs]
      rw [if_neg (by simp [hup, hig, hro]), if_neg (by simp), if_pos hdn]
    have hdc : dnContrib (.mk n t false v) = scalarText v := by
      rw [dnContrib]
      rw [if_neg (by simp [hup, hig, hro]), if_neg (by simp), if_pos hdn]
    rw [hfa, hdc]
    have hdnv := hrest.2
    cases v with
    | str s =>
      have hs : s ≠ "" := by simpa [dnValOK] using hdnv
      refine core_of_dn n _ _ hup hig hro hguard (fun ez h => by cases h) s hs ?_
      rw [encodeField]
      rw [if_neg (by simp [Value.isZero, hs]), if_pos (by simp [hlow])]
    | bytes b =>
      cases b with
      | none => simp [dnValOK] at hdnv
      | some bb =>
        have hb : bb ≠ "" := by simpa [dnValOK] using hdnv
        have hsc : scalarText (Value.bytes (some bb)) = bb := by
          rw [scalarText]
          rfl
        rw [hsc]
        refine core_of_dn n _ _ hup hig hro hguard (fun ez h => by cases h) bb hb ?_
        rw [encodeField]
        rw [if_neg (by simp [Value.isZero]), if_pos (by simp [hlow])]
        rfl
    | _ => simp [dnValOK] at hdnv
  · -- ordinary field
    rw [if_neg hdn, Bool.and_eq_true] at hrest
    obtain ⟨hval, homit⟩ := hrest
    have hlow : strToLower (parseTag n t).attrName ≠ "dn" := by
      simpa [lowName] using hdn
    have hdnf : (lowName (.mk n t false v) == "dn") = false := by
      simpa using hdn
    have hfa : fieldAttrs (.mk n t false v) =
        (if (parseTag n t).omitempty && v.isZero then []
         else [⟨(parseTag n t).attrName, encTexts v, encTexts v⟩]) := by
      rw [fieldAttrs]
      rw [if_neg (by simp [hup, hig, hro]), if_neg (by simp), if_neg (by simp [hdnf])]
    have hdc : dnContrib (.mk n t false v) = "" := by
      rw [dnContrib]
      rw [if_neg (by simp [hup, hig, hro]), if_neg (by simp), if_neg (by simp [hdnf])]
    rw [hfa, hdc]
    by_cases hskip : ((parseTag n t).omitempty && v.isZero) = true
    · -- omit-empty skip
      rw [if_pos hskip]
      rw [Bool.and_eq_true] at hskip
      exact core_skip n _ v hup hig hro (by simp [hskip.1, hskip.2, hlow])
    · -- contributing field
      have hskip' : ((parseTag n t).omitempty && v.isZero) = false := by
        simpa using hskip
      rw [if_neg (by rw [hskip']; exact Bool.false_ne_true)]
      have hguard : (v.isZero && (strToLower (parseTag n t).attrName != "dn") &&
          (parseTag n t).omitempty) = false := by
        cases hz : v.isZero <;> cases ho : (parseTag n t).omitempty <;>
          simp_all
      cases v with
      | slice es ez =>
        cases es with
        | none =>
          have ho : (parseTag n t).omitempty = false := by
            simpa [Value.isZero] using hskip'
          refine core_of_attr n _ _ hup hig hro hguard (fun ez h => by cases h) _ ?_
          rw [encodeField]
          rw [if_neg (by simp [ho]), if_neg (by simp [hlow])]
          simp [encTexts, emptyAttr]
        | some l =>
          rw [fieldValOK, Bool.and_eq_true] at hval
          obtain ⟨hne, hall⟩ := hval
          rw [List.all_eq_true] at hall
          have hl : l ≠ [] := by simpa using hne
          have helems : ∀ x ∈ l, scalarOK x = true ∧ (derefAll x).isZero = false := by
            intro x hx
            have hx2 := hall x hx
            rw [Bool.and_eq_true, Bool.and_eq_true] at hx2
            exact ⟨hx2.1.1, by simpa using hx2.1.2⟩
          refine core_of_attr n _ _ hup hig hro hguard (fun ez h => by cases h) _ ?_
          rw [encodeField]
          rw [if_neg (by simp [Value.isZero]), if_neg (by simp [hlow])]
          rw [encodeElems_spec _ hlow l hl helems]
          simp [encTexts, NewEntryAttribute]
      | ptr p ez =>
        cases p with
        | none =>
          rw [encodeFieldCore]
          rw [if_neg (by simp [hup]), if_neg (by simp [hig, hro]),
            if_neg (by simp [hguard])]
          simp [encTexts, emptyAttr]
        | some q =>
          have hsc : scalarOK (.ptr (some q) ez) = true := by
            simpa [fieldValOK] using hval
          have homit2 : (parseTag n t).omitempty = true →
              (derefAll (.ptr (some q) ez)).isZero = false := by
            intro ho
            rcases Bool.or_eq_true_iff.mp homit with h1 | h2
            · rcases Bool.or_eq_true_iff.mp h1 with ha | hb
              · rw [ho] at ha
                simp at ha
              · simp [Value.isZero] at hb
            · simpa using h2
          refine core_of_attr n _ _ hup hig hro hguard (fun ez h => by cases h) _
            (encodeField_scalar _ _ _ hsc hlow homit2)
      | str s =>
          have hsc : scalarOK (Value.str s) = true := by simpa [fieldValOK] using hval
          have homit2 : (parseTag n t).omitempty = true →
              (derefAll (Value.str s)).isZero = false := by
            intro ho
            rcases Bool.or_eq_true_iff.mp homit with h1 | h2
            · rcases Bool.or_eq_true_iff.mp h1 with ha | hb
              · rw [ho] at ha
                simp at ha
              · rw [ho] at hskip'
                simp only [Bool.true_and] at hskip'
                rw [hskip'] at hb
                simp at hb
            · simpa using h2
          exact core_of_attr n _ _ hup hig hro hguard (fun ez h => by cases h)
            _ (encodeField_scalar _ _ _ hsc hlow homit2)
      | bytes b =>
          have hsc : scalarOK (Value.bytes b) = true := by simpa [fieldValOK] using hval
          have homit2 : (parseTag n t).omitempty = true →
              (derefAll (Value.bytes b)).isZero = false := by
            intro ho
            rcases Bool.or_eq_true_iff.mp homit with h1 | h2
            · rcases Bool.or_eq_true_iff.mp h1 with ha | hb
              · rw [ho] at ha
                simp at ha
              · rw [ho] at hskip'
                simp only [Bool.true_and] at hskip'
                rw [hskip'] at hb
                simp at hb
            · simpa using h2
          exact core_of_attr n _ _ hup hig hro hguard (fun ez h => by cases h)
            _ (encodeField_scalar _ _ _ hsc hlow homit2)
      | intV m =>
          have hsc : scalarOK (Value.intV m) = true := by simpa [fieldValOK] using hval
          have homit2 : (parseTag n t).omitempty = true →
              (derefAll (Value.intV m)).isZero = false := by
            intro ho
            rcases Bool.or_eq_true_iff.mp homit with h1 | h2
            · rcases Bool.or_eq_true_iff.mp h1 with ha | hb
              · rw [ho] at ha
                simp at ha
              · rw [ho] at hskip'
                simp only [Bool.true_and] at hskip'
                rw [hskip'] at hb
                simp at hb
            · simpa using h2
          exact core_of_attr n _ _ hup hig hro hguard (fun ez h => by cases h)
            _ (encodeField_scalar _ _ _ hsc hlow homit2)
      | uintV m =>
          have hsc : scalarOK (Value.uintV m) = true := by simpa [fieldValOK] using hval
          have homit2 : (parseTag n t).omitempty = true →
              (derefAll (Value.uintV m)).isZero = false := by
            intro ho
            rcases Bool.or_eq_true_iff.mp homit with h1 | h2
            · rcases Bool.or_eq_true_iff.mp h1 with ha | hb
              · rw [ho] at ha
                simp at ha
              · rw [ho] at hskip'
                simp only [Bool.true_and] at hskip'
                rw [hskip'] at hb
                simp at hb
            · simpa using h2
          exact core_of_attr n _ _ hup hig hro hguard (fun ez h => by cases h)
            _ (encodeField_scalar _ _ _ hsc hlow homit2)
      | boolV b =>
          have hsc : scalarOK (Value.boolV b) = true := by simpa [fieldValOK] using hval
          have homit2 : (parseTag n t).omitempty = true →
              (derefAll (Value.boolV b)).isZero = false := by
            intro ho
            rcases Bool.or_eq_true_iff.mp homit with h1 | h2
            · rcases Bool.or_eq_true_iff.mp h1 with ha | hb
              · rw [ho] at ha
                simp at ha
              · rw [ho] at hskip'
                simp only [Bool.true_and] at hskip'
                rw [hskip'] at hb
                simp at hb
            · simpa using h2
          exact core_of_attr n _ _ hup hig hro hguard (fun ez h => by cases h)
            _ (encodeField_scalar _ _ _ hsc hlow homit2)
      | floatV q =>
          have hsc : scalarOK (Value.floatV q) = true := by simpa [fieldValOK] using hval
          have homit2 : (parseTag n t).omitempty = true →
              (derefAll (Value.floatV q)).isZero = false := by
            intro ho
            rcases Bool.or_eq_true_iff.mp homit with h1 | h2
            · rcases Bool.or_eq_true_iff.mp h1 with ha | hb
              · rw [ho] at ha
                simp at ha
              · rw [ho] at hskip'
                simp only [Bool.true_and] at hskip'
                rw [hskip'] at hb
                simp at hb
            · simpa using h2
          exact core_of_attr n _ _ hup hig hro hguard (fun ez h => by cases h)
            _ (encodeField_scalar _ _ _ hsc hlow homit2)
      | timeV x => simp [fieldValOK, scalarOK] at hval
      | custom d => simp [fieldValOK, scalarOK] at hval
      | struct fs => simp [fieldValOK, scalarOK] at hval

/-- `find?` skips a prefix on which the predicate fails. -/
theorem findAppendNone {α : Type} (p : α → Bool) :
    ∀ (xs ys : List α), (∀ x ∈ xs, p x = false) →
    List.find? p (xs ++ ys) = List.find? p ys
  | [], ys, _ => rfl
  | x :: xs, ys, h => by
    rw [List.cons_append, List.find?_cons_of_neg _ (by simp [h x (List.mem_cons_self x xs)]),
      findAppendNone p xs ys (fun y hy => h y (List.mem_cons_of_mem x hy))]

/-- Decoding the texts a round-trippable field value encodes to, into the
value's shape zero, recovers the value up to `veq`. -/
theorem decodeStructField_encTexts (v : Value) (hfv : fieldValOK v = true) :
    ∃ w, decodeStructField (shapeZero v) (encTexts v) = .ok w ∧ veq w v = true := by
  cases v with
  | slice es ez =>
    cases es with
    | none =>
      exact ⟨.slice none ez, by simp [shapeZero, encTexts, decodeStructField],
        by simp [veq]⟩
    | some l =>
      rw [fieldValOK, Bool.and_eq_true, List.all_eq_true] at hfv
      obtain ⟨hne, hall⟩ := hfv
      have hel : ∀ y ∈ l, scalarOK y = true ∧ vbeq ez (shapeZero y) = true := by
        intro y hy
        have := hall y hy
        simp only [Bool.and_eq_true] at this
        exact ⟨this.1.1, this.2⟩
      obtain ⟨ws, hws, hveql⟩ := decodeElems_rt l ez hel
      cases l with
      | nil => simp at hne
      | cons x xs =>
        refine ⟨.slice (some ws) ez, ?_, by simp [veq, hveql]⟩
        rw [List.map_cons] at hws
        simp [shapeZero, encTexts, decodeStructField, hws]
  | ptr p ez =>
    cases p with
    | none =>
      exact ⟨.ptr none ez, by simp [shapeZero, encTexts, decodeStructField],
        by simp [veq]⟩
    | some q =>
      have hs : scalarOK (.ptr (some q) ez) = true := by
        simpa [fieldValOK] using hfv
      obtain ⟨w, hw, hvw⟩ := setValue_scalarText (.ptr (some q) ez) hs
      refine ⟨w, ?_, hvw⟩
      rw [show shapeZero (.ptr (some q) ez) = .ptr none ez from rfl]
      rw [show encTexts (.ptr (some q) ez) = [scalarText (.ptr (some q) ez)] from rfl]
      rw [decodeStructField_single _ (fun es ez h => Value.noConfusion h) _ []]
      simpa [shapeZero] using hw
  | str s =>
    obtain ⟨w, hw, hvw⟩ := setValue_scalarText (.str s) (by simp [scalarOK])
    exact ⟨w, by rw [show encTexts (.str s) = [scalarText (.str s)] from rfl,
      decodeStructField_single _ (fun es ez h => Value.noConfusion h) _ []]; exact hw, hvw⟩
  | bytes b =>
    cases b with
    | none => simp [fieldValOK, scalarOK] at hfv
    | some s =>
      obtain ⟨w, hw, hvw⟩ := setValue_scalarText (.bytes (some s)) (by simp [scalarOK])
      exact ⟨w, by rw [show encTexts (.bytes (some s)) = [scalarText (.bytes (some s))] from rfl,
        decodeStructField_single _ (fun es ez h => Value.noConfusion h) _ []]; exact hw, hvw⟩
  | intV n =>
    have hs : scalarOK (.intV n) = true := by simpa [fieldValOK] using hfv
    obtain ⟨w, hw, hvw⟩ := setValue_scalarText (.intV n) hs
    exact ⟨w, by rw [show encTexts (.intV n) = [scalarText (.intV n)] from rfl,
      decodeStructField_single _ (fun es ez h => Value.noConfusion h) _ []]; exact hw, hvw⟩
  | uintV n =>
    have hs : scalarOK (.uintV n) = true := by simpa [fieldValOK] using hfv
    obtain ⟨w, hw, hvw⟩ := setValue_scalarText (.uintV n) hs
    exact ⟨w, by rw [show encTexts (.uintV n) = [scalarText (.uintV n)] from rfl,
      decodeStructField_single _ (fun es ez h => Value.noConfusion h) _ []]; exact hw, hvw⟩
  | boolV b =>
    obtain ⟨w, hw, hvw⟩ := setValue_scalarText (.boolV b) (by simp [scalarOK])
    exact ⟨w, by rw [show encTexts (.boolV b) = [scalarText (.boolV b)] from rfl,
      decodeStructField_single _ (fun es ez h => Value.noConfusion h) _ []]; exact hw, hvw⟩
  | floatV q =>
    obtain ⟨w, hw, hvw⟩ := setValue_scalarText (.floatV q) (by simp [scalarOK])
    exact ⟨w, by rw [show encTexts (.floatV q) = [scalarText (.floatV q)] from rfl,
      decodeStructField_single _ (fun es ez h => Value.noConfusion h) _ []]; exact hw, hvw⟩
  | timeV i => simp [fieldValOK, scalarOK] at hfv
  | custom d => simp [fieldValOK, scalarOK] at hfv
  | struct fs => simp [fieldValOK, scalarOK] at hfv

/-- One decode step over the encoded entry recovers a well-behaved field,
given the identity text and the attribute lookup the entry provides. -/
theorem decodeFieldStep_rt (e : Entry) (n : String) (t : Option String) (v : Value)
    (hOK : plainFieldOK (.mk n t false v) = true)
    (hdn : strToLower (parseTag n t).attrName = "dn" → e.dn = scalarText v)
    (hlook : strToLower (parseTag n t).attrName ≠ "dn" →
      getAttributeValues e (parseTag n t).attrName =
        (if ((parseTag n t).omitempty && v.isZero) = true then none
         else some (encTexts v))) :
    ∃ w, decodeFieldStep e (.mk n t false (shapeZero v)) = .ok (.mk n t false w) ∧
      veq w v = true := by
  rw [plainFieldOK] at hOK
  simp only [lowName, Field.name, Field.tag, Field.anonymous, Field.val,
    Bool.and_eq_true, Bool.not_eq_true'] at hOK
  obtain ⟨⟨⟨⟨hup, hig⟩, hro⟩, -⟩, hrest⟩ := hOK
  by_cases hd : strToLower (parseTag n t).attrName = "dn"
  · have hcond : (strToLower (parseTag n t).attrName == "dn") = true := by simp [hd]
    rw [if_pos hcond, Bool.and_eq_true] at hrest
    have hs : scalarOK v = true := by
      cases v with
      | str s => simp [scalarOK]
      | bytes b => cases b with
        | none => simp [dnValOK] at hrest
        | some s => simp [scalarOK]
      | _ => simp [dnValOK] at hrest
    obtain ⟨w, hw, hvw⟩ := setValue_scalarText v hs
    refine ⟨w, ?_, hvw⟩
    have hedn := hdn hd
    generalize hX : shapeZero v = X at hw
    cases X <;> simp [decodeFieldStep, hup, hig, hd, hedn, hw]
  · have hcond : (strToLower (parseTag n t).attrName == "dn") = false := by simp [hd]
    rw [if_neg (by simp [hcond]), Bool.and_eq_true] at hrest
    obtain ⟨hfv, homit⟩ := hrest
    have hlk := hlook hd
    by_cases hskip : ((parseTag n t).omitempty && v.isZero) = true
    · rw [if_pos hskip] at hlk
      have hz : v.isZero = true := by
        have h2 := hskip
        rw [Bool.and_eq_true] at h2
        exact h2.2
      obtain ⟨hsz, hveq⟩ := shapeZero_of_zero v hfv hz
      refine ⟨shapeZero v, ?_, by rw [hsz]; exact hveq⟩
      generalize shapeZero v = X
      cases X <;> simp [decodeFieldStep, hup, hig, hcond, hlk]
    · rw [if_neg hskip] at hlk
      obtain ⟨w, hw, hvw⟩ := decodeStructField_encTexts v hfv
      refine ⟨w, ?_, hvw⟩
      generalize hX : shapeZero v = X at hw
      cases X <;> simp [decodeFieldStep, hup, hig, hcond, hlk, hw]

/-- C1 counterexample: a record whose fields all have supported types (a
`string` identity and a `[]string` collection) round-trips to a *different*
record — the encoder drops the zero collection element — although no
floating-point or timestamp field is involved. -/
theorem c1_counterexample_zero_slice_element :
    Encode (.struct [.mk "DN" none false (.str "cn=u"),
        .mk "S" none false (.slice (some [.str "", .str "x"]) (.str ""))]) =
      .ok ⟨"cn=u", [⟨"s", ["x"], ["x"]⟩]⟩ ∧
    Decode ⟨"cn=u", [⟨"s", ["x"], ["x"]⟩]⟩
        (shapeZero (.struct [.mk "DN" none false (.str "cn=u"),
          .mk "S" none false (.slice (some [.str "", .str "x"]) (.str ""))])) =
      .ok (.struct [.mk "DN" none false (.str "cn=u"),
        .mk "S" none false (.slice (some [.str "x"]) (.str ""))]) ∧
    veqFields
      [.mk "DN" none false (.str "cn=u"),
        .mk "S" none false (.slice (some [.str "x"]) (.str ""))]
      [.mk "DN" none false (.str "cn=u"),
        .mk "S" none false (.slice (some [.str "", .str "x"]) (.str ""))] = false := by
  have h1 : parseTag "DN" none = ⟨"dn", false, false, false⟩ := by decide
  have h2 : parseTag "S" none = ⟨"s", false, false, false⟩ := by decide
  refine ⟨?_, ?_, ?_⟩
  · simp +decide [Encode, stripPtrs, encodeStructFields, encodeFieldCore, encodeField,
      encodeElems, h1, h2, Value.isZero, emptyAttr, NewEntryAttribute]
  · simp +decide [Decode, hasDN, hasDNFields, shapeZero, shapeZeroFields, decodeStruct,
      decodeFieldStep, getAttributeValues, setValue, decodeStructField, decodeElems,
      h1, h2]
  · simp +decide [veqFields, veqList, veq]

/-- `find?` returns an early hit unchanged across an append. -/
theorem findAppendSome {α : Type} (p : α → Bool) :
    ∀ (xs ys : List α) (a : α), List.find? p xs = some a →
    List.find? p (xs ++ ys) = some a
  | [], _, _, h => by simp at h
  | x :: xs, ys, a, h => by
    rw [List.cons_append]
    cases hx : p x with
    | true =>
      rw [List.find?_cons_of_pos _ hx]
      rw [List.find?_cons_of_pos _ hx] at h
      exact h
    | false =>
      rw [List.find?_cons_of_neg _ (by simp [hx])]
      rw [List.find?_cons_of_neg _ (by simp [hx])] at h
      exact findAppendSome p xs ys a h

/-- Distinctness of an appended name list gives distinctness of the parts
and disjointness across them. -/
theorem distinctNames_append : ∀ (A B : List String),
    distinctNames (A ++ B) = true →
    distinctNames A = true ∧ distinctNames B = true ∧ ∀ a ∈ A, ∀ b ∈ B, a ≠ b
  | [], B, h => by
    refine ⟨rfl, by simpa using h, ?_⟩
    intro a ha
    simp at ha
  | x :: A, B, h => by
    rw [List.cons_append, distinctNames, Bool.and_eq_true, List.all_eq_true] at h
    obtain ⟨hx, hrest⟩ := h
    obtain ⟨hA, hB, hdisj⟩ := distinctNames_append A B hrest
    refine ⟨?_, hB, ?_⟩
    · rw [distinctNames, Bool.and_eq_true, List.all_eq_true]
      exact ⟨fun y hy => hx y (List.mem_append_left B hy), hA⟩
    · intro a ha b hb
      rcases List.mem_cons.mp ha with h1 | h2
      · subst h1
        have := hx b (List.mem_append_right A hb)
        intro heq
        rw [heq] at this
        simp at this
      · exact hdisj a h2 b hb

/-- In a list whose mapped names are pairwise distinct, equal names force
equal elements. -/
theorem distinctNames_unique {α : Type} (f : α → String) : ∀ (l : List α),
    distinctNames (l.map f) = true →
    ∀ a ∈ l, ∀ b ∈ l, f a = f b → a = b
  | [], _, a, ha, _, _, _ => by simp at ha
  | x :: l, h, a, ha, b, hb, hab => by
    rw [List.map_cons, distinctNames, Bool.and_eq_true, List.all_eq_true] at h
    obtain ⟨hx, hrest⟩ := h
    rcases List.mem_cons.mp ha with ha1 | ha2 <;> rcases List.mem_cons.mp hb with hb1 | hb2
    · rw [ha1, hb1]
    · subst ha1
      have := hx (f b) (List.mem_map_of_mem f hb2)
      rw [hab] at this
      simp at this
    · subst hb1
      have := hx (f a) (List.mem_map_of_mem f ha2)
      rw [hab] at this
      simp at this
    · exact distinctNames_unique f l hrest a ha2 b hb2 hab

/-- An acceptable identity value has a non-empty text. -/
theorem dnValOK_scalarText (v : Value) (h : dnValOK v = true) :
    scalarText v ≠ "" := by
  cases v with
  | str s => simpa [dnValOK, scalarText] using h
  | bytes b =>
    cases b with
    | none => simp [dnValOK] at h
    | some s => simpa [dnValOK, scalarText] using h
  | _ => simp [dnValOK] at h

mutual
/-- One encoder traversal step on a tree-acceptable field yields exactly its
specified attributes and identity contribution. -/
theorem encodeFieldCore_tree : ∀ (n : String) (t : Option String) (a : Bool) (v : Value),
    fieldOK (.mk n t a v) = true →
    encodeFieldCore n a (parseTag n t) v =
      .ok (fieldAttrs (.mk n t a v), dnContrib (.mk n t a v))
  | n, t, a, v, hOK => by
    rw [fieldOK] at hOK
    by_cases hup : isUpperFirst n = true
    · by_cases hig : (parseTag n t).ignored = true
      · have hfa : fieldAttrs (.mk n t a v) = [] := by
          rw [fieldAttrs, if_pos (by simp [hig])]
        have hdc : dnContrib (.mk n t a v) = "" := by
          rw [dnContrib, if_pos (by simp [hig])]
        rw [hfa, hdc, encodeFieldCore.eq_def,
          if_neg (by simp [hup]), if_pos (by simp [hig])]
      · rw [if_neg (by simp [hup, hig])] at hOK
        by_cases hro : (parseTag n t).readOnly = true
        · have hfa : fieldAttrs (.mk n t a v) = [] := by
            rw [fieldAttrs, if_pos (by simp [hro])]
          have hdc : dnContrib (.mk n t a v) = "" := by
            rw [dnContrib, if_pos (by simp [hro])]
          rw [hfa, hdc, encodeFieldCore.eq_def,
            if_neg (by simp [hup]), if_pos (by simp [hro])]
        · rw [if_neg hro] at hOK
          by_cases ha : a = true
          · rw [if_pos ha, Bool.and_eq_true] at hOK
            obtain ⟨hs, hnz⟩ := hOK
            cases v with
            | struct gs =>
              have hgs : fieldsOK gs = true := by simpa [structOK] using hs
              have hfa : fieldAttrs (.mk n t a (.struct gs)) = attrsOf gs := by
                rw [fieldAttrs, if_neg (by simp [hup, hig, hro]), if_pos ha,
                  attrsOfVal]
              have hdc : dnContrib (.mk n t a (.struct gs)) = dnOf gs := by
                rw [dnContrib, if_neg (by simp [hup, hig, hro]), if_pos ha,
                  dnOfVal]
              have hguard : ((Value.struct gs).isZero &&
                  (strToLower (parseTag n t).attrName != "dn") &&
                  (parseTag n t).omitempty) = false := by
                cases hz : (Value.struct gs).isZero <;>
                  cases ho : (parseTag n t).omitempty <;> simp_all
              rw [hfa, hdc, encodeFieldCore.eq_def,
                if_neg (by simp [hup]), if_neg (by simp [hig, hro]),
                if_neg (by simp [hguard])]
              simp [ha, encodeStructFields_tree gs hgs]
            | str s => simp [structOK] at hs
            | bytes b => simp [structOK] at hs
            | intV m => simp [structOK] at hs
            | uintV m => simp [structOK] at hs
            | boolV b => simp [structOK] at hs
            | floatV q => simp [structOK] at hs
            | timeV x => simp [structOK] at hs
            | custom d => simp [structOK] at hs
            | ptr p ez => simp [structOK] at hs
            | slice es ez => simp [structOK] at hs
          · have ha2 : a = false := by simpa using ha
            subst ha2
            rw [if_neg (by simp)] at hOK
            exact encodeFieldCore_plain n t v hOK
    · have hup2 : isUpperFirst n = false := by simpa using hup
      have hfa : fieldAttrs (.mk n t a v) = [] := by
        rw [fieldAttrs, if_pos (by simp [hup2])]
      have hdc : dnContrib (.mk n t a v) = "" := by
        rw [dnContrib, if_pos (by simp [hup2])]
      rw [hfa, hdc]
      exact encodeFieldCore_unexported n a _ v hup2
termination_by n t a v _ => sizeOf v

/-- The encoder traversal of a tree-acceptable record yields exactly the
specified attribute list and identity. -/
theorem encodeStructFields_tree : ∀ (fs : List Field), fieldsOK fs = true →
    encodeStructFields fs = .ok (attrsOf fs, dnOf fs)
  | [], _ => by simp [encodeStructFields, attrsOf, dnOf]
  | .mk n t a v :: rest, h => by
    rw [fieldsOK, Bool.and_eq_true] at h
    rw [encodeStructFields, encodeFieldCore_tree n t a v h.1,
      encodeStructFields_tree rest h.2]
    rw [attrsOf, dnOf]
termination_by fs _ => sizeOf fs
end

mutual
/-- A field none of whose flattened fields resolves to `dn` contributes no
identity. -/
theorem dnContrib_flat_none : ∀ (n : String) (t : Option String) (a : Bool) (v : Value),
    (∀ g ∈ flatField (.mk n t a v), lowName g ≠ "dn") →
    dnContrib (.mk n t a v) = ""
  | n, t, a, v, hno => by
    by_cases hup : isUpperFirst n = true
    · by_cases hig : (parseTag n t).ignored = true
      · rw [dnContrib, if_pos (by simp [hig])]
      · by_cases hro : (parseTag n t).readOnly = true
        · rw [dnContrib, if_pos (by simp [hro])]
        · rw [flatField, if_neg (by simp [hup, hig])] at hno
          rw [dnContrib, if_neg (by simp [hup, hig, hro])]
          by_cases ha : a = true
          · rw [if_pos ha]
            rw [if_pos ha] at hno
            cases v with
            | struct gs =>
              rw [dnOfVal]
              exact dnOf_flat_none gs (by simpa [flatVal] using hno)
            | _ => simp [dnOfVal]
          · rw [if_neg ha]
            rw [if_neg ha] at hno
            have hself := hno _ (List.mem_singleton_self _)
            rw [if_neg (by simpa using hself)]
    · rw [dnContrib, if_pos (by simp [Bool.not_eq_true] at hup; simp [hup])]
termination_by n t a v _ => sizeOf v

/-- A field list none of whose flattened fields resolves to `dn` has an
empty encoded identity. -/
theorem dnOf_flat_none : ∀ (fs : List Field),
    (∀ g ∈ flatOf fs, lowName g ≠ "dn") → dnOf fs = ""
  | [], _ => rfl
  | .mk n t a v :: rest, hno => by
    have h2 : dnOf rest = "" := dnOf_flat_none rest (fun g hg =>
      hno g (by rw [flatOf]; exact List.mem_append_right _ hg))
    rw [dnOf, h2, if_neg (by simp)]
    exact dnContrib_flat_none n t a v (fun g hg =>
      hno g (by rw [flatOf]; exact List.mem_append_left _ hg))
termination_by fs _ => sizeOf fs
end

mutual
/-- The identity contribution of a tree-acceptable field whose flattened
fields contain the unique `dn` resolver is that field's text, and it is
non-empty. -/
theorem dnContrib_flat_dn : ∀ (n : String) (t : Option String) (a : Bool) (v : Value),
    fieldOK (.mk n t a v) = true →
    ∀ g ∈ flatField (.mk n t a v), lowName g = "dn" →
    (∀ h ∈ flatField (.mk n t a v), lowName h = "dn" → h = g) →
    dnContrib (.mk n t a v) = scalarText (Field.val g) ∧ scalarText (Field.val g) ≠ ""
  | n, t, a, v, hOK, g, hg, hlow, huni => by
    by_cases hup : isUpperFirst n = true
    · by_cases hig : (parseTag n t).ignored = true
      · rw [flatField, if_pos (by simp [hig])] at hg
        simp at hg
      · rw [flatField, if_neg (by simp [hup, hig])] at hg huni
        rw [fieldOK, if_neg (by simp [hup, hig])] at hOK
        by_cases hro : (parseTag n t).readOnly = true
        · rw [if_pos hro, Bool.and_eq_true, Bool.and_eq_true] at hOK
          have hna : a = false := by simpa using hOK.1.1
          subst hna
          rw [if_neg (by simp)] at hg
          have hgf : g = Field.mk n t false v := by simpa using hg
          subst hgf
          rw [lowName, Field.name, Field.tag] at hlow
          rw [hlow] at hOK
          simp at hOK
        · rw [if_neg hro] at hOK
          by_cases ha : a = true
          · rw [if_pos ha, Bool.and_eq_true] at hOK
            rw [if_pos ha] at hg huni
            cases v with
            | struct gs =>
              have hgs : fieldsOK gs = true := by simpa [structOK] using hOK.1
              rw [flatVal] at hg huni
              have := dnOf_flat_dn gs hgs g hg hlow huni
              rw [dnContrib, if_neg (by simp [hup, hig, hro]), if_pos ha, dnOfVal]
              exact this
            | _ => simp [structOK] at hOK
          · rw [if_neg ha] at hOK hg huni
            have hna : a = false := by simpa using ha
            subst hna
            have hgf : g = Field.mk n t false v := by simpa using hg
            subst hgf
            rw [plainFieldOK] at hOK
            simp only [Field.name, Field.tag, Field.anonymous, Field.val,
              Bool.and_eq_true, Bool.not_eq_true'] at hOK
            rw [if_pos (by simpa using hlow), Bool.and_eq_true] at hOK
            have hdnv := hOK.2.2
            rw [Field.val]
            refine ⟨?_, dnValOK_scalarText v hdnv⟩
            rw [dnContrib, if_neg (by simp [hup, hig, hro]), if_neg (by simp),
              if_pos (by simpa using hlow)]
    · rw [flatField, if_pos (by simp [Bool.not_eq_true] at hup; simp [hup])] at hg
      simp at hg
termination_by n t a v _ _ _ _ _ => sizeOf v

/-- The encoded identity of a tree-acceptable field list whose flattened
fields contain the unique `dn` resolver is that field's text, and it is
non-empty. -/
theorem dnOf_flat_dn : ∀ (fs : List Field), fieldsOK fs = true →
    ∀ g ∈ flatOf fs, lowName g = "dn" →
    (∀ h ∈ flatOf fs, lowName h = "dn" → h = g) →
    dnOf fs = scalarText (Field.val g) ∧ scalarText (Field.val g) ≠ ""
  | [], _, g, hg, _, _ => by simp [flatOf] at hg
  | .mk n t a v :: rest, hall, g, hg, hlow, huni => by
    rw [fieldsOK, Bool.and_eq_true] at hall
    by_cases hmem : g ∈ flatOf rest
    · obtain ⟨h2, hne⟩ := dnOf_flat_dn rest hall.2 g hmem hlow
        (fun h hh hlh => huni h (by rw [flatOf]; exact List.mem_append_right _ hh) hlh)
      refine ⟨?_, hne⟩
      rw [dnOf, h2, if_pos (by simpa using hne)]
    · have hgf : g ∈ flatField (.mk n t a v) := by
        rw [flatOf] at hg
        rcases List.mem_append.mp hg with h | h
        · exact h
        · exact absurd h hmem
      have hnone : dnOf rest = "" := dnOf_flat_none rest (fun h hh => by
        intro hlh
        have heq := huni h (by rw [flatOf]; exact List.mem_append_right _ hh) hlh
        rw [heq] at hh
        exact hmem hh)
      obtain ⟨h1, hne⟩ := dnContrib_flat_dn n t a v hall.1 g hgf hlow
        (fun h hh hlh => huni h (by rw [flatOf]; exact List.mem_append_left _ hh) hlh)
      refine ⟨?_, hne⟩
      rw [dnOf, hnone, if_neg (by simp), h1]
termination_by fs _ _ _ _ _ => sizeOf fs
end

mutual
/-- Every attribute a field contributes comes from a contributing flattened
field and carries exactly that field's resolved name and texts. -/
theorem fieldAttrs_witness : ∀ (n : String) (t : Option String) (a : Bool) (v : Value),
    ∀ x ∈ fieldAttrs (.mk n t a v),
    ∃ h, h ∈ flatField (.mk n t a v) ∧
      lookupExpect h = some (encTexts (Field.val h)) ∧
      x = ⟨(parseTag (Field.name h) (Field.tag h)).attrName,
        encTexts (Field.val h), encTexts (Field.val h)⟩
  | n, t, a, v, x, hx => by
    by_cases hup : isUpperFirst n = true
    · by_cases hig : (parseTag n t).ignored = true
      · rw [fieldAttrs, if_pos (by simp [hig])] at hx
        simp at hx
      · by_cases hro : (parseTag n t).readOnly = true
        · rw [fieldAttrs, if_pos (by simp [hro])] at hx
          simp at hx
        · rw [fieldAttrs, if_neg (by simp [hup, hig, hro])] at hx
          by_cases ha : a = true
          · rw [if_pos ha] at hx
            cases v with
            | struct gs =>
              rw [attrsOfVal] at hx
              obtain ⟨h, hh, hrest⟩ := attrsOf_witness gs x hx
              refine ⟨h, ?_, hrest⟩
              rw [flatField, if_neg (by simp [hup, hig]), if_pos ha, flatVal]
              exact hh
            | _ => simp [attrsOfVal] at hx
          · rw [if_neg ha] at hx
            by_cases hdn : (lowName (.mk n t a v) == "dn") = true
            · rw [if_pos hdn] at hx
              simp at hx
            · rw [if_neg hdn] at hx
              by_cases hom : ((parseTag n t).omitempty && v.isZero) = true
              · rw [if_pos hom] at hx
                simp at hx
              · rw [if_neg hom] at hx
                have hx2 : x = ⟨(parseTag n t).attrName, encTexts v, encTexts v⟩ := by
                  simpa using hx
                refine ⟨.mk n t a v, ?_, ?_, ?_⟩
                · rw [flatField, if_neg (by simp [hup, hig]), if_neg ha]
                  exact List.mem_singleton_self _
                · rw [lookupExpect, Field.name, Field.tag, Field.val,
                    if_neg (by simp [hro]), if_neg (by simp [hom])]
                · rw [Field.name, Field.tag, Field.val]
                  exact hx2
    · rw [fieldAttrs, if_pos (by simp [Bool.not_eq_true] at hup; simp [hup])] at hx
      simp at hx
termination_by n t a v _ _ => sizeOf v

/-- List version of `fieldAttrs_witness`. -/
theorem attrsOf_witness : ∀ (fs : List Field), ∀ x ∈ attrsOf fs,
    ∃ h, h ∈ flatOf fs ∧
      lookupExpect h = some (encTexts (Field.val h)) ∧
      x = ⟨(parseTag (Field.name h) (Field.tag h)).attrName,
        encTexts (Field.val h), encTexts (Field.val h)⟩
  | [], x, hx => by simp [attrsOf] at hx
  | .mk n t a v :: rest, x, hx => by
    rw [attrsOf] at hx
    rcases List.mem_append.mp hx with h1 | h2
    · obtain ⟨h, hh, hrest⟩ := fieldAttrs_witness n t a v x h1
      exact ⟨h, by rw [flatOf]; exact List.mem_append_left _ hh, hrest⟩
    · obtain ⟨h, hh, hrest⟩ := attrsOf_witness rest x h2
      exact ⟨h, by rw [flatOf]; exact List.mem_append_right _ hh, hrest⟩
termination_by fs _ _ => sizeOf fs
end

mutual
/-- Looking up the resolved name of a non-identity flattened field among the
attributes a tree-acceptable field contributes yields exactly its expected
texts. -/
theorem findAttr_field : ∀ (n : String) (t : Option String) (a : Bool) (v : Value),
    fieldOK (.mk n t a v) = true →
    ∀ g ∈ flatField (.mk n t a v), lowName g ≠ "dn" →
    (∀ h ∈ flatField (.mk n t a v), lowName h = lowName g → h = g) →
    List.find? (fun x => strToLower x.name == lowName g) (fieldAttrs (.mk n t a v)) =
      (lookupExpect g).map
        (fun vals => (⟨(parseTag (Field.name g) (Field.tag g)).attrName, vals,
          vals⟩ : EntryAttribute))
  | n, t, a, v, hOK, g, hg, hne, huni => by
    by_cases hup : isUpperFirst n = true
    · by_cases hig : (parseTag n t).ignored = true
      · rw [flatField, if_pos (by simp [hig])] at hg
        simp at hg
      · rw [flatField, if_neg (by simp [hup, hig])] at hg
        rw [fieldOK, if_neg (by simp [hup, hig])] at hOK
        by_cases hro : (parseTag n t).readOnly = true
        · rw [if_pos hro, Bool.and_eq_true, Bool.and_eq_true] at hOK
          have hna : a = false := by simpa using hOK.1.1
          subst hna
          rw [if_neg (by simp)] at hg
          have hgf : g = Field.mk n t false v := by simpa using hg
          subst hgf
          rw [fieldAttrs, if_pos (by simp [hro])]
          rw [lookupExpect, Field.name, Field.tag, if_pos hro]
          rfl
        · rw [if_neg hro] at hOK
          by_cases ha : a = true
          · rw [if_pos ha, Bool.and_eq_true] at hOK
            rw [if_pos ha] at hg
            cases v with
            | struct gs =>
              have hgs : fieldsOK gs = true := by simpa [structOK] using hOK.1
              rw [flatVal] at hg
              rw [fieldAttrs, if_neg (by simp [hup, hig, hro]), if_pos ha, attrsOfVal]
              refine findAttr_list gs hgs g hg hne (fun h hh hlh => ?_)
              refine huni h ?_ hlh
              rw [flatField, if_neg (by simp [hup, hig]), if_pos ha, flatVal]
              exact hh
            | _ => simp [structOK] at hOK
          · rw [if_neg ha] at hOK hg
            have hna : a = false := by simpa using ha
            subst hna
            have hgf : g = Field.mk n t false v := by simpa using hg
            subst hgf
            have hdnf : (lowName (Field.mk n t false v) == "dn") = false := by
              simpa using hne
            rw [fieldAttrs, if_neg (by simp [hup, hig, hro]), if_neg (by simp),
              if_neg (by simp [hdnf])]
            by_cases hom : ((parseTag n t).omitempty && (Field.mk n t false v).val.isZero) = true
            · rw [if_pos (by simpa [Field.val] using hom)]
              rw [lookupExpect, Field.name, Field.tag, if_neg (by simp [hro]),
                if_pos hom]
              rfl
            · rw [if_neg (by intro hc; exact hom (by simpa [Field.val] using hc))]
              rw [lookupExpect, Field.name, Field.tag, if_neg (by simp [hro]),
                if_neg hom]
              rw [List.find?_cons_of_pos _ (by
                rw [lowName, Field.name, Field.tag]
                simp)]
              simp [Field.name, Field.tag, Field.val]
    · rw [flatField, if_pos (by simp [Bool.not_eq_true] at hup; simp [hup])] at hg
      simp at hg
termination_by n t a v _ _ _ _ _ => sizeOf v

/-- List version of `findAttr_field`. -/
theorem findAttr_list : ∀ (fs : List Field), fieldsOK fs = true →
    ∀ g ∈ flatOf fs, lowName g ≠ "dn" →
    (∀ h ∈ flatOf fs, lowName h = lowName g → h = g) →
    List.find? (fun x => strToLower x.name == lowName g) (attrsOf fs) =
      (lookupExpect g).map
        (fun vals => (⟨(parseTag (Field.name g) (Field.tag g)).attrName, vals,
          vals⟩ : EntryAttribute))
  | [], _, g, hg, _, _ => by simp [flatOf] at hg
  | .mk n t a v :: rest, hall, g, hg, hne, huni => by
    rw [fieldsOK, Bool.and_eq_true] at hall
    rw [attrsOf]
    by_cases hgf : g ∈ flatField (.mk n t a v)
    · have hfind := findAttr_field n t a v hall.1 g hgf hne
        (fun h hh hlh => huni h (by rw [flatOf]; exact List.mem_append_left _ hh) hlh)
      cases hle : lookupExpect g with
      | some vals =>
        have hfind2 : List.find? (fun x => strToLower x.name == lowName g)
            (fieldAttrs (.mk n t a v)) =
            some ⟨(parseTag (Field.name g) (Field.tag g)).attrName, vals, vals⟩ := by
          rw [hle] at hfind
          simpa using hfind
        rw [findAppendSome _ _ _ _ hfind2]
        simp
      | none =>
        have hfind2 : List.find? (fun x => strToLower x.name == lowName g)
            (fieldAttrs (.mk n t a v)) = none := by
          rw [hle] at hfind
          simpa using hfind
        rw [findAppendNone _ _ _ (fun x hx => by
          have := List.find?_eq_none.mp hfind2 x hx
          simpa using this)]
        show _ = (none : Option EntryAttribute)
        rw [List.find?_eq_none]
        intro x hx
        obtain ⟨h, hh, hlook, hx2⟩ := attrsOf_witness rest x hx
        intro hpred
        have hlh : lowName h = lowName g := by
          rw [hx2] at hpred
          have := eq_of_beq hpred
          rw [lowName]
          exact this
        have heq := huni h (by rw [flatOf]; exact List.mem_append_right _ hh) hlh
        rw [heq] at hlook
        rw [hlook] at hle
        simp at hle
    · have hpw : ∀ x ∈ fieldAttrs (.mk n t a v),
          (strToLower x.name == lowName g) = false := by
        intro x hx
        obtain ⟨h, hh, hlook, hx2⟩ := fieldAttrs_witness n t a v x hx
        by_contra hc
        have hpred : (strToLower x.name == lowName g) = true := by
          simpa using hc
        have hlh : lowName h = lowName g := by
          rw [hx2] at hpred
          have := eq_of_beq hpred
          rw [lowName]
          exact this
        have heq := huni h (by rw [flatOf]; exact List.mem_append_left _ hh) hlh
        rw [heq] at hh
        exact hgf hh
      rw [findAppendNone _ _ _ hpw]
      refine findAttr_list rest hall.2 g ?_ hne
        (fun h hh hlh => huni h (by rw [flatOf]; exact List.mem_append_right _ hh) hlh)
      rw [flatOf] at hg
      rcases List.mem_append.mp hg with h | h
      · exact absurd h hgf
      · exact h
termination_by fs _ _ _ _ _ => sizeOf fs
end

mutual
/-- A tree-acceptable field whose flattened names contain `dn` satisfies the
per-field disjunct of the zeroed shape's `hasDN` check. -/
theorem hasDN_flat_field : ∀ (n : String) (t : Option String) (a : Bool) (v : Value),
    fieldOK (.mk n t a v) = true →
    "dn" ∈ (flatField (.mk n t a v)).map lowName →
    ((parseTag n t).attrName == "dn" || (a && hasDN (shapeZero v))) = true
  | n, t, a, v, hOK, hmem => by
    by_cases hup : isUpperFirst n = true
    · by_cases hig : (parseTag n t).ignored = true
      · rw [flatField, if_pos (by simp [hig])] at hmem
        simp at hmem
      · rw [flatField, if_neg (by simp [hup, hig])] at hmem
        rw [fieldOK, if_neg (by simp [hup, hig])] at hOK
        by_cases hro : (parseTag n t).readOnly = true
        · rw [if_pos hro, Bool.and_eq_true, Bool.and_eq_true] at hOK
          have hna : a = false := by simpa using hOK.1.1
          subst hna
          rw [if_neg (by simp)] at hmem
          have hlf : lowName (Field.mk n t false v) = "dn" := by
            rcases List.mem_map.mp hmem with ⟨h, hh, hl⟩
            have : h = Field.mk n t false v := by simpa using hh
            rw [this] at hl
            exact hl
          rw [lowName, Field.name, Field.tag] at hlf
          rw [hlf] at hOK
          simp at hOK
        · rw [if_neg hro] at hOK
          by_cases ha : a = true
          · rw [if_pos ha, Bool.and_eq_true] at hOK
            rw [if_pos ha] at hmem
            cases v with
            | struct gs =>
              have hgs : fieldsOK gs = true := by simpa [structOK] using hOK.1
              rw [flatVal] at hmem
              have hrec := hasDN_flat_list gs hgs (by rw [namesOf]; exact hmem)
              have hz : hasDN (shapeZero (Value.struct gs)) = true := by
                rw [shapeZero, hasDN]
                exact hrec
              rw [ha, hz]
              simp
            | _ => simp [structOK] at hOK
          · rw [if_neg ha] at hOK hmem
            have hna : a = false := by simpa using ha
            subst hna
            have hlf : lowName (Field.mk n t false v) = "dn" := by
              rcases List.mem_map.mp hmem with ⟨h, hh, hl⟩
              have : h = Field.mk n t false v := by simpa using hh
              rw [this] at hl
              exact hl
            rw [plainFieldOK] at hOK
            simp only [Field.name, Field.tag, Field.anonymous, Field.val,
              Bool.and_eq_true, Bool.not_eq_true'] at hOK
            rw [if_pos (by simpa using hlf), Bool.and_eq_true] at hOK
            rw [hOK.2.1]
            simp
    · rw [flatField, if_pos (by simp [Bool.not_eq_true] at hup; simp [hup])] at hmem
      simp at hmem
termination_by n t a v _ _ => sizeOf v

/-- A tree-acceptable field list whose flattened names contain `dn` keeps a
`hasDN` hit after all values are zeroed. -/
theorem hasDN_flat_list : ∀ (fs : List Field), fieldsOK fs = true →
    "dn" ∈ namesOf fs → hasDNFields (shapeZeroFields fs) = true
  | [], _, hmem => by simp [namesOf, flatOf] at hmem
  | .mk n t a v :: rest, hall, hmem => by
    rw [fieldsOK, Bool.and_eq_true] at hall
    rw [namesOf, flatOf, List.map_append] at hmem
    rw [shapeZeroFields, hasDNFields]
    rcases List.mem_append.mp hmem with h1 | h2
    · have := hasDN_flat_field n t a v hall.1 h1
      rcases Bool.or_eq_true_iff.mp this with h | h
      · simp [h]
      · simp [h]
    · rw [hasDN_flat_list rest hall.2 (by rw [namesOf]; exact h2)]
      simp
termination_by fs _ _ => sizeOf fs
end

mutual
/-- One decode step over an entry providing the per-field context recovers a
tree-acceptable field from its zero shape, up to `veq`. -/
theorem decodeFieldStep_tree (e : Entry) : ∀ (n : String) (t : Option String)
    (a : Bool) (v : Value),
    fieldOK (.mk n t a v) = true →
    (∀ g ∈ flatField (.mk n t a v), decCtx e g) →
    ∃ w, decodeFieldStep e (.mk n t a (shapeZero v)) = .ok (.mk n t a w) ∧
      veq w v = true
  | n, t, a, v, hOK, hctx => by
    by_cases hup : isUpperFirst n = true
    · by_cases hig : (parseTag n t).ignored = true
      · rw [fieldOK, if_pos (by simp [hig])] at hOK
        refine ⟨shapeZero v, ?_, hOK⟩
        generalize shapeZero v = X
        cases X <;> simp [decodeFieldStep, hup, hig]
      · rw [fieldOK, if_neg (by simp [hup, hig])] at hOK
        by_cases hro : (parseTag n t).readOnly = true
        · rw [if_pos hro, Bool.and_eq_true, Bool.and_eq_true] at hOK
          obtain ⟨⟨hna2, hnd⟩, hveq⟩ := hOK
          have hna : a = false := by simpa using hna2
          subst hna
          have hndn : (strToLower (parseTag n t).attrName == "dn") = false := by
            simpa using hnd
          have hc := hctx (.mk n t false v) (by
            rw [flatField, if_neg (by simp [hup, hig]), if_neg (by simp)]
            exact List.mem_singleton_self _)
          obtain ⟨-, hlk⟩ := hc
          have hlk2 := hlk (by
            rw [Field.name, Field.tag]
            simpa using hndn)
          rw [Field.name, Field.tag, lookupExpect, Field.name, Field.tag,
            if_pos hro] at hlk2
          refine ⟨shapeZero v, ?_, hveq⟩
          generalize shapeZero v = X
          cases X <;> simp [decodeFieldStep, hup, hig, hndn, hlk2]
        · rw [if_neg hro] at hOK
          by_cases ha : a = true
          · rw [if_pos ha, Bool.and_eq_true] at hOK
            obtain ⟨hs, -⟩ := hOK
            cases v with
            | struct gs =>
              have hgs : fieldsOK gs = true := by simpa [structOK] using hs
              have hctx2 : ∀ g ∈ flatOf gs, decCtx e g := by
                intro g hg
                apply hctx
                rw [flatField, if_neg (by simp [hup, hig]), if_pos ha, flatVal]
                exact hg
              obtain ⟨gs2, hgs2, hv⟩ := decodeStruct_tree e gs hgs hctx2
              refine ⟨.struct gs2, ?_, by simp [veq, hv]⟩
              rw [show shapeZero (Value.struct gs) = .struct (shapeZeroFields gs)
                from by rw [shapeZero]]
              simp [decodeFieldStep, hup, hig, ha, hgs2]
            | _ => simp [structOK] at hs
          · rw [if_neg ha] at hOK
            have hna : a = false := by simpa using ha
            subst hna
            have hro2 : (parseTag n t).readOnly = false := by simpa using hro
            have hc := hctx (.mk n t false v) (by
              rw [flatField, if_neg (by simp [hup, hig]), if_neg (by simp)]
              exact List.mem_singleton_self _)
            obtain ⟨hdnc, hlkc⟩ := hc
            refine decodeFieldStep_rt e n t v hOK ?_ ?_
            · intro hd
              have := hdnc (by rw [Field.name, Field.tag]; exact hd)
              rw [Field.val] at this
              exact this
            · intro hd
              have := hlkc (by rw [Field.name, Field.tag]; exact hd)
              rw [Field.name, Field.tag, lookupExpect, Field.name, Field.tag,
                Field.val, if_neg (by simp [hro2])] at this
              exact this
    · rw [fieldOK, if_pos (by simp [Bool.not_eq_true] at hup; simp [hup])] at hOK
      exact ⟨shapeZero v,
        decodeFieldStep_unexported e n t a (shapeZero v) (by simpa using hup), hOK⟩
termination_by n t a v _ _ => sizeOf v

/-- Pointwise decode of a zeroed tree-acceptable field list recovers the
record up to `veq`. -/
theorem decodeStruct_tree (e : Entry) : ∀ (fs : List Field), fieldsOK fs = true →
    (∀ g ∈ flatOf fs, decCtx e g) →
    ∃ gs, decodeStruct e (shapeZeroFields fs) = .ok gs ∧ veqFields gs fs = true
  | [], _, _ => ⟨[], by simp [shapeZeroFields, decodeStruct], by simp [veqFields]⟩
  | .mk n t a v :: rest, hall, hctx => by
    rw [fieldsOK, Bool.and_eq_true] at hall
    obtain ⟨w, hw, hvw⟩ := decodeFieldStep_tree e n t a v hall.1
      (fun g hg => hctx g (by rw [flatOf]; exact List.mem_append_left _ hg))
    obtain ⟨gs, hgs, hvgs⟩ := decodeStruct_tree e rest hall.2
      (fun g hg => hctx g (by rw [flatOf]; exact List.mem_append_right _ hg))
    refine ⟨.mk n t a w :: gs, ?_, ?_⟩
    · rw [shapeZeroFields, decodeStruct, hw, hgs]
    · simp [veqFields, hvw, hvgs]
termination_by fs _ _ => sizeOf fs
end

/-- The entry a well-behaved record encodes to provides every flattened
field's decode context. -/
theorem record_ctx (fs : List Field) (h : recordOK fs = true) :
    ∀ g ∈ flatOf fs, decCtx ⟨dnOf fs, attrsOf fs⟩ g := by
  rw [recordOK, Bool.and_eq_true, Bool.and_eq_true] at h
  obtain ⟨⟨hall, hdist⟩, -⟩ := h
  have huniq : ∀ x ∈ flatOf fs, ∀ y ∈ flatOf fs, lowName x = lowName y → x = y :=
    distinctNames_unique lowName (flatOf fs) (by rw [namesOf] at hdist; exact hdist)
  intro g hg
  constructor
  · intro hd
    have hlowg : lowName g = "dn" := by rw [lowName]; exact hd
    obtain ⟨h1, -⟩ := dnOf_flat_dn fs hall g hg hlowg
      (fun h hh hlh => huniq h hh g hg (by rw [hlh, hlowg]))
    exact h1
  · intro hd
    have hlowg : lowName g ≠ "dn" := by rw [lowName]; exact hd
    have hfind := findAttr_list fs hall g hg hlowg
      (fun h hh hlh => huniq h hh g hg hlh)
    simp only [lowName] at hfind
    rw [getAttributeValues]
    cases hle : lookupExpect g with
    | none =>
      rw [hle] at hfind
      simp only [Option.map_none'] at hfind
      rw [hfind]
    | some vals =>
      rw [hle] at hfind
      simp only [Option.map_some'] at hfind
      rw [hfind]

/-- C1 (amended): for records whose field tree satisfies `recordOK` —
unexported and ignored fields hold values equal to their zero shape;
read-only fields are non-embedded, resolve away from `dn` and hold their
zero shape; embedded fields are exported struct values, recursively
acceptable and not omit-empty-skipped; the flattened active fields have
pairwise-distinct resolved names, among them exactly `dn` with a non-empty
text or byte identity value; the remaining values are round-trippable
scalars, nil pointers or slices, or non-empty collections of non-zero
scalars, with omit-if-empty fields zero or non-zero after dereferencing —
decoding the encoded entry into a fresh zero record of the same shape
recovers the record up to floating-point payloads. -/
theorem c1_roundtrip_amended (fs : List Field) (h : recordOK fs = true) :
    ∃ en gs, Encode (.struct fs) = .ok en ∧
      Decode en (shapeZero (.struct fs)) = .ok (.struct gs) ∧
      veqFields gs fs = true := by
  have h2 := h
  rw [recordOK, Bool.and_eq_true, Bool.and_eq_true] at h2
  obtain ⟨⟨hall, hdist⟩, hany⟩ := h2
  have hdnmem : "dn" ∈ namesOf fs := by
    rw [List.any_eq_true] at hany
    obtain ⟨x, hx, hxeq⟩ := hany
    have hxdn : x = "dn" := eq_of_beq hxeq
    rw [← hxdn]
    exact hx
  obtain ⟨gdn, hgdn, hgdnlow⟩ : ∃ g ∈ flatOf fs, lowName g = "dn" := by
    rcases List.mem_map.mp (by rw [namesOf] at hdnmem; exact hdnmem) with ⟨g, hg, hl⟩
    exact ⟨g, hg, hl⟩
  have huniq : ∀ x ∈ flatOf fs, ∀ y ∈ flatOf fs, lowName x = lowName y → x = y :=
    distinctNames_unique lowName (flatOf fs) (by rw [namesOf] at hdist; exact hdist)
  obtain ⟨hdneq, hdnne⟩ := dnOf_flat_dn fs hall gdn hgdn hgdnlow
    (fun h3 hh hlh => huniq h3 hh gdn hgdn (by rw [hlh, hgdnlow]))
  have henc : Encode (.struct fs) = .ok ⟨dnOf fs, attrsOf fs⟩ := by
    have h1 := encodeStructFields_tree fs hall
    have hne : (dnOf fs == "") = false := by
      rw [hdneq]
      simpa using hdnne
    simp [Encode, stripPtrs, h1, hne]
  obtain ⟨gs, hgs, hv⟩ :=
    decodeStruct_tree ⟨dnOf fs, attrsOf fs⟩ fs hall (record_ctx fs h)
  refine ⟨⟨dnOf fs, attrsOf fs⟩, gs, henc, ?_, hv⟩
  have hdn : hasDN (.struct (shapeZeroFields fs)) = true := by
    rw [hasDN]
    exact hasDN_flat_list fs hall hdnmem
  rw [show shapeZero (.struct fs) = .struct (shapeZeroFields fs) from by rw [shapeZero]]
  simp [Decode, hdn, hgs]

/-- Witness for C1 (amended): a record with a `string` identity, an embedded
struct holding one plain `string` field, and a zero-valued unexported field
round-trips. -/
theorem c1_roundtrip_amended_witness :
    recordOK [.mk "DN" none false (.str "cn=u"),
        .mk "Emb" none true (.struct [.mk "Alpha" none false (.str "hello")]),
        .mk "note" none false (.str "")] = true ∧
    ∃ en gs,
      Encode (.struct [.mk "DN" none false (.str "cn=u"),
          .mk "Emb" none true (.struct [.mk "Alpha" none false (.str "hello")]),
          .mk "note" none false (.str "")]) = .ok en ∧
      Decode en (shapeZero (.struct [.mk "DN" none false (.str "cn=u"),
          .mk "Emb" none true (.struct [.mk "Alpha" none false (.str "hello")]),
          .mk "note" none false (.str "")])) = .ok (.struct gs) ∧
      veqFields gs [.mk "DN" none false (.str "cn=u"),
          .mk "Emb" none true (.struct [.mk "Alpha" none false (.str "hello")]),
          .mk "note" none false (.str "")] = true := by
  have hrec : recordOK [.mk "DN" none false (.str "cn=u"),
      .mk "Emb" none true (.struct [.mk "Alpha" none false (.str "hello")]),
      .mk "note" none false (.str "")] = true := by decide
  exact ⟨hrec, c1_roundtrip_amended _ hrec⟩

end ldap